import Mathlib

/-!
Verification of the core algorithms of the IntuneSettingsCatalogViewer
repository: the search ranker (`src/lib/search.ts`), the setting grouper
(`src/lib/settings-grouping.ts`), the category tree builder and search-index
projection (`scripts/build-search-index.ts`) and the changelog differ
(`scripts/generate-changelog.ts`).

The TypeScript code is shallowly embedded: JavaScript strings are Lean
`String`s but every string operation used by the code (`includes`,
`indexOf`/`substring`, `trim`, `split`, `toLowerCase`, comparison) is
implemented here over the underlying character list, so that all
definitions evaluate by kernel reduction.  JavaScript `Map`s are modelled
as insertion-ordered association lists with `Map.set` semantics (replace
in place, append when new).  `Array.prototype.sort(cmp)` — a stable
comparator sort — is modelled by a stable insertion sort over the boolean
relation `cmp a b ≤ 0`.
-/

/-! ## JavaScript string and map primitives -/

/-- JS truthiness of an optional string: `undefined`/absent and `""` are falsy. -/
def truthy : Option String → Bool
  | none => false
  | some s => s != ""

/-- Read an optional string, defaulting to the empty string (JS `x || ''` / `x ?? ''` result). -/
def getStr (o : Option String) : String := o.getD ""

/-- JS `a || b` on optional strings. -/
def jsOr (a b : Option String) : Option String := if truthy a then a else b

/-- JS `String.prototype.includes`: does `needle` occur contiguously in `hay`? -/
def occursIn (needle : List Char) : List Char → Bool
  | [] => needle.isEmpty
  | c :: t => needle.isPrefixOf (c :: t) || occursIn needle t

/-- Split at the first occurrence of `needle` (JS `indexOf` + `substring`):
`some (pre, post)` when `needle` occurs, with `pre` the part before the first
occurrence; `none` when `indexOf` would return `-1`. -/
def splitFirst (needle : List Char) : List Char → Option (List Char × List Char)
  | [] => if needle.isEmpty then some ([], []) else none
  | c :: t =>
    if needle.isPrefixOf (c :: t) then some ([], (c :: t).drop needle.length)
    else match splitFirst needle t with
      | some (pre, post) => some (c :: pre, post)
      | none => none

/-- Strict lexicographic (code-point) order on character lists, modelling the
three-way string comparison underlying `localeCompare`. -/
def lexLt : List Char → List Char → Bool
  | _, [] => false
  | [], _ :: _ => true
  | a :: as, b :: bs => decide (a.toNat < b.toNat) || (a == b && lexLt as bs)

/-- JS `String.prototype.trim`. -/
def jsTrim (s : String) : String :=
  ⟨((s.data.dropWhile Char.isWhitespace).reverse.dropWhile Char.isWhitespace).reverse⟩

/-- JS `String.prototype.toLowerCase` (code-point-wise). -/
def jsToLower (s : String) : String := ⟨s.data.map Char.toLower⟩

/-- JS `String.prototype.split(',')`. -/
def jsSplitCommas (s : String) : List String := (List.splitOn ',' s.data).map List.asString

/-- JS `hay.includes(needle)` on strings. -/
def jsIncludes (hay needle : String) : Bool := occursIn needle.data hay.data

/-- A JS `Map` with string keys: an association list in insertion order. -/
abbrev JsMap (α : Type) : Type := List (String × α)

/-- JS `Map.prototype.get`. -/
def jmGet {α : Type} (m : JsMap α) (k : String) : Option α :=
  (List.find? (fun p => p.1 == k) m).map (·.2)

/-- JS `Map.prototype.set`: replace in place when the key exists (keys are
unique in a JS `Map`, so replacing the first match is exact), else append. -/
def jmSet {α : Type} (m : JsMap α) (k : String) (v : α) : JsMap α :=
  match m with
  | [] => [(k, v)]
  | p :: rest => if p.1 == k then (k, v) :: rest else p :: jmSet rest k v

/-! ## A stable comparator sort

`Array.prototype.sort(cmp)` is required by ECMAScript to be stable and to
order the array consistently with the comparator; a stable insertion sort
over `le a b := cmp a b ≤ 0` is a faithful model. -/

/-- Insert `x` before the first element `y` with `le x y` (stable insert). -/
def insOrdered {α : Type} (le : α → α → Bool) (x : α) : List α → List α
  | [] => [x]
  | y :: ys => if le x y then x :: y :: ys else y :: insOrdered le x ys

/-- Stable insertion sort over a boolean "less or equal" relation. -/
def insSort {α : Type} (le : α → α → Bool) : List α → List α
  | [] => []
  | x :: xs => insOrdered le x (insSort le xs)

theorem insOrdered_perm {α : Type} (le : α → α → Bool) (x : α) (l : List α) :
    (insOrdered le x l).Perm (x :: l) := by
  induction l with
  | nil => simp [insOrdered]
  | cons y ys ih =>
    simp only [insOrdered]
    split
    · exact List.Perm.refl _
    · exact ((ih.cons y).trans (List.Perm.swap x y ys))

theorem insSort_perm {α : Type} (le : α → α → Bool) (l : List α) :
    (insSort le l).Perm l := by
  induction l with
  | nil => simp [insSort]
  | cons x xs ih =>
    exact (insOrdered_perm le x (insSort le xs)).trans (ih.cons x)

theorem insOrdered_pairwise {α : Type} {le : α → α → Bool}
    (trans : ∀ a b c, le a b = true → le b c = true → le a c = true)
    (total : ∀ a b, le a b = true ∨ le b a = true) (x : α) {l : List α}
    (h : l.Pairwise (fun a b => le a b = true)) :
    (insOrdered le x l).Pairwise (fun a b => le a b = true) := by
  induction l with
  | nil => simp [insOrdered]
  | cons y ys ih =>
    simp only [insOrdered]
    rcases h with _ | ⟨hy, hys⟩
    split
    · next hxy =>
      refine List.Pairwise.cons ?_ (List.Pairwise.cons hy hys)
      intro b hb
      rcases List.mem_cons.mp hb with rfl | hb
      · exact hxy
      · exact trans x y b hxy (hy b hb)
    · next hxy =>
      have hyx : le y x = true := (total x y).resolve_left (by simpa using hxy)
      refine List.Pairwise.cons ?_ (ih hys)
      intro b hb
      have hb' := (insOrdered_perm le x ys).mem_iff.mp hb
      rcases List.mem_cons.mp hb' with rfl | hb'
      · exact hyx
      · exact hy b hb'

theorem insSort_pairwise {α : Type} {le : α → α → Bool}
    (trans : ∀ a b c, le a b = true → le b c = true → le a c = true)
    (total : ∀ a b, le a b = true ∨ le b a = true) (l : List α) :
    (insSort le l).Pairwise (fun a b => le a b = true) := by
  induction l with
  | nil => simp [insSort]
  | cons x xs ih => exact insOrdered_pairwise trans total x ih

/-! ### Order facts about `lexLt` -/

theorem char_eq_of_toNat_eq {a b : Char} (h : a.toNat = b.toNat) : a = b :=
  Char.ext (UInt32.ext (by simpa [Char.toNat] using h))

theorem lexLt_asymm : ∀ {a b : List Char}, lexLt a b = true → lexLt b a = false
  | _, [], h => by simp [lexLt] at h
  | [], _ :: _, _ => by simp [lexLt]
  | x :: xs, y :: ys, h => by
    simp only [lexLt, Bool.or_eq_true, Bool.and_eq_true, decide_eq_true_eq, beq_iff_eq] at h
    simp only [lexLt, Bool.or_eq_false_iff, Bool.and_eq_false_iff, decide_eq_false_iff_not,
      beq_eq_false_iff_ne, ne_eq]
    rcases h with h | ⟨rfl, h⟩
    · constructor
      · omega
      · left
        intro hyx
        subst hyx
        omega
    · exact ⟨by omega, Or.inr (lexLt_asymm h)⟩

theorem lexLt_trans : ∀ {a b c : List Char},
    lexLt a b = true → lexLt b c = true → lexLt a c = true
  | _, [], _, h1, _ => by simp [lexLt] at h1
  | _, _, [], _, h2 => by simp [lexLt] at h2
  | [], _ :: _, _ :: _, _, _ => by simp [lexLt]
  | x :: xs, y :: ys, z :: zs, h1, h2 => by
    simp only [lexLt, Bool.or_eq_true, Bool.and_eq_true, decide_eq_true_eq, beq_iff_eq] at h1 h2 ⊢
    rcases h1 with h1 | ⟨rfl, h1⟩
    · rcases h2 with h2 | ⟨rfl, _⟩
      · exact Or.inl (by omega)
      · exact Or.inl h1
    · rcases h2 with h2 | ⟨rfl, h2⟩
      · exact Or.inl h2
      · exact Or.inr ⟨rfl, lexLt_trans h1 h2⟩

theorem lexLt_connected : ∀ {a b : List Char},
    lexLt a b = false → lexLt b a = false → a = b
  | [], [], _, _ => rfl
  | [], _ :: _, h1, _ => by simp [lexLt] at h1
  | _ :: _, [], _, h2 => by simp [lexLt] at h2
  | x :: xs, y :: ys, h1, h2 => by
    simp only [lexLt, Bool.or_eq_false_iff, Bool.and_eq_false_iff, decide_eq_false_iff_not,
      beq_eq_false_iff_ne, ne_eq] at h1 h2
    obtain ⟨hxy, h1'⟩ := h1
    obtain ⟨hyx, h2'⟩ := h2
    have hx : x = y := char_eq_of_toNat_eq (by omega)
    subst hx
    rcases h1' with h1' | h1'
    · exact absurd rfl h1'
    · rcases h2' with h2' | h2'
      · exact absurd rfl h2'
      · rw [lexLt_connected h1' h2']

/-! ## Search (`src/lib/search.ts`)

The Flexsearch index is an external dependency: the per-term, per-field
document query `index.search(term, { limit })` is modelled as an oracle
parameter producing, for each queried term and limit, the list of
`{ field, result }` groups Flexsearch returns.  Everything after that call
is translated from the source of `search`. -/

/-- One `{ field, result }` group of a Flexsearch Document query. -/
structure FieldHits where
  field : String
  result : List String
deriving DecidableEq

/-- The external Flexsearch index: term and limit to field hit groups. -/
abbrev FlexIndex := String → Nat → List FieldHits

/-- A record of the search index artifact (`SearchIndexEntry`). -/
structure SearchIndexEntry where
  id : String
  displayName : String
  description : String
  keywords : String
  categoryId : String
  categoryName : String
  scope : String
  platform : String
  settingType : String
deriving DecidableEq

/-- The `fieldPriority` lookup (`fieldPriority[field] ?? 1`). -/
def fieldPriority (f : String) : Nat :=
  if f == "displayName" then 4
  else if f == "keywords" then 3
  else if f == "description" then 2
  else if f == "categoryName" then 1
  else 1

/-- `query.split(',').map(t => t.trim()).filter(Boolean)`. -/
def searchTerms (query : String) : List String :=
  ((jsSplitCommas query).map jsTrim).filter (fun t => t != "")

/-- The `fieldScores` map: for every term, for every field group, keep per
document id the highest field priority seen. -/
def collectFieldScores (flex : FlexIndex) (limit : Nat) (terms : List String) : JsMap Nat :=
  terms.foldl (fun acc term =>
    (flex term limit).foldl (fun acc fr =>
      let fieldScore := fieldPriority fr.field
      fr.result.foldl (fun acc id =>
        let existing := (jmGet acc id).getD 0
        if fieldScore > existing then jmSet acc id fieldScore else acc) acc) acc) []

/-- `new Map(documents.map(d => [d.id, d])).get id` — last write wins. -/
def docLookup (documents : List SearchIndexEntry) (id : String) : Option SearchIndexEntry :=
  List.find? (fun d => d.id == id) documents.reverse

/-- Map matched ids back to full documents, in `fieldScores` insertion order. -/
def matchedDocs (documents : List SearchIndexEntry) (scores : JsMap Nat) :
    List SearchIndexEntry :=
  scores.filterMap (fun p => docLookup documents p.1)

/-- Full-phrase tier of `getNameScore` (100/80/60/40). -/
def phraseScore (lower term : List Char) : Nat :=
  if lower == term then 100
  else if term.isPrefixOf lower then 80
  else if occursIn (' ' :: term) lower || occursIn (term ++ [' ']) lower then 60
  else if occursIn term lower then 40
  else 0

/-- Single-word tier of `getNameScore` (30/25/20/15). -/
def wordScore (lower word : List Char) : Nat :=
  if lower == word then 30
  else if word.isPrefixOf lower then 25
  else if occursIn (' ' :: word) lower || occursIn (word ++ [' ']) lower then 20
  else if occursIn word lower then 15
  else 0

/-- Score of one query term against a lowered display name: the phrase tier,
falling back to the best individual-word tier for multi-word terms. -/
def termScore (lower term : List Char) : Nat :=
  let score := phraseScore lower term
  if score == 0 then
    let words := (List.splitOnP Char.isWhitespace term).filter (fun w => !w.isEmpty)
    if words.length > 1 then
      words.foldl (fun sc w => let ws := wordScore lower w; if ws > sc then ws else sc) score
    else score
  else score

/-- `getNameScore`: the best term score over all (lowered) query terms. -/
def getNameScore (lowerTerms : List String) (name : String) : Nat :=
  lowerTerms.foldl (fun best t =>
    let s := termScore (jsToLower name).data t.data
    if s > best then s else best) 0

/-- Three-way string comparison modelling `a.localeCompare(b)`. -/
def localeCompare (a b : String) : Int :=
  if lexLt a.data b.data then -1 else if lexLt b.data a.data then 1 else 0

/-- The ranking comparator passed to `matched.sort`. -/
def searchCmp (lowerTerms : List String) (scores : JsMap Nat)
    (a b : SearchIndexEntry) : Int :=
  let aNameScore := getNameScore lowerTerms a.displayName
  let bNameScore := getNameScore lowerTerms b.displayName
  let aHasName : Int := if aNameScore > 0 then 1 else 0
  let bHasName : Int := if bNameScore > 0 then 1 else 0
  if aHasName ≠ bHasName then bHasName - aHasName
  else if aNameScore ≠ bNameScore then (bNameScore : Int) - (aNameScore : Int)
  else
    let aFieldScore := (jmGet scores a.id).getD 0
    let bFieldScore := (jmGet scores b.id).getD 0
    if aFieldScore ≠ bFieldScore then (bFieldScore : Int) - (aFieldScore : Int)
    else localeCompare a.displayName b.displayName

/-- The candidate set of a query: matched documents before ranking. -/
def searchCandidates (documents : List SearchIndexEntry) (flex : FlexIndex)
    (query : String) (limit : Nat) : List SearchIndexEntry :=
  if jsTrim query == "" then []
  else matchedDocs documents (collectFieldScores flex limit (searchTerms query))

/-- The fully ranked candidate list (`matched.sort(cmp)`), before the final
`slice(0, limit)`. -/
def searchRanked (documents : List SearchIndexEntry) (flex : FlexIndex)
    (query : String) (limit : Nat) : List SearchIndexEntry :=
  insSort
    (fun a b =>
      searchCmp ((searchTerms query).map jsToLower)
        (collectFieldScores flex limit (searchTerms query)) a b ≤ 0)
    (searchCandidates documents flex query limit)

/-- `search`: rank all candidates, then truncate to the caller's limit. -/
def search (documents : List SearchIndexEntry) (flex : FlexIndex)
    (query : String) (limit : Nat) : List SearchIndexEntry :=
  (searchRanked documents flex query limit).take limit

/-! ### The four-tier ranking order -/

/-- The four-tier order of the spec: (a) positive name affinity beats
non-positive affinity, (b) higher affinity wins within a bucket, (c) ties
break by the index field-priority score, (d) final ties break alphabetically
by display name. -/
def tierLE (ns fs : SearchIndexEntry → Nat) (a b : SearchIndexEntry) : Prop :=
  (0 < ns a ∧ ns b = 0) ∨
  ((0 < ns a ↔ 0 < ns b) ∧
    (ns b < ns a ∨ (ns a = ns b ∧
      (fs b < fs a ∨ (fs a = fs b ∧ lexLt b.displayName.data a.displayName.data = false)))))

theorem lexLt_irrefl (a : List Char) : lexLt a a = false := by
  cases h : lexLt a a with
  | false => rfl
  | true => exact absurd h (by simpa using lexLt_asymm h)

theorem lexLt_neg_trans {a b c : List Char} (h1 : lexLt b a = false)
    (h2 : lexLt c b = false) : lexLt c a = false := by
  cases h : lexLt c a with
  | false => rfl
  | true =>
    exfalso
    cases hbc : lexLt b c with
    | false =>
      have : b = c := lexLt_connected hbc h2
      subst this
      simp [h1] at h
    | true =>
      cases hab : lexLt a b with
      | false =>
        have : a = b := lexLt_connected hab h1
        subst this
        simp [h2] at h
      | true =>
        have hac : lexLt a c = true := lexLt_trans hab hbc
        have : lexLt c c = true := lexLt_trans h hac
        simp [lexLt_irrefl] at this

theorem localeCompare_nonpos (a b : String) :
    localeCompare a b ≤ 0 ↔ lexLt b.data a.data = false := by
  unfold localeCompare
  cases hab : lexLt a.data b.data with
  | true => simp [lexLt_asymm hab]
  | false =>
    cases hba : lexLt b.data a.data with
    | true => simp
    | false => simp

theorem searchCmp_nonpos_iff (lowerTerms : List String) (scores : JsMap Nat)
    (a b : SearchIndexEntry) :
    searchCmp lowerTerms scores a b ≤ 0 ↔
      tierLE (fun e => getNameScore lowerTerms e.displayName)
        (fun e => (jmGet scores e.id).getD 0) a b := by
  simp only [searchCmp, tierLE, gt_iff_lt]
  split_ifs <;>
    first
      | omega
      | (cases hL : lexLt b.displayName.data a.displayName.data <;> simp [hL] <;> omega)
      | (rw [localeCompare_nonpos]
         cases hL : lexLt b.displayName.data a.displayName.data <;> simp [hL] <;> omega)

theorem tierLE_trans (ns fs : SearchIndexEntry → Nat) {a b c : SearchIndexEntry}
    (h1 : tierLE ns fs a b) (h2 : tierLE ns fs b c) : tierLE ns fs a c := by
  unfold tierLE at h1 h2 ⊢
  rcases h1 with ⟨ha, hb0⟩ | ⟨hab, h1⟩
  · rcases h2 with ⟨hb, _⟩ | ⟨hbc, _⟩
    · exact absurd hb (by omega)
    · have hc : ¬ 0 < ns c := fun h => (by omega : ¬ 0 < ns b) (hbc.mpr h)
      exact Or.inl ⟨ha, by omega⟩
  · rcases h2 with ⟨hb, hc0⟩ | ⟨hbc, h2⟩
    · exact Or.inl ⟨hab.mpr hb, hc0⟩
    · refine Or.inr ⟨hab.trans hbc, ?_⟩
      rcases h1 with h1 | ⟨e1, h1⟩
      · rcases h2 with h2 | ⟨e2, _⟩
        · exact Or.inl (by omega)
        · exact Or.inl (by omega)
      · rcases h2 with h2 | ⟨e2, h2⟩
        · exact Or.inl (by omega)
        · refine Or.inr ⟨by omega, ?_⟩
          rcases h1 with h1 | ⟨f1, L1⟩
          · rcases h2 with h2 | ⟨f2, _⟩
            · exact Or.inl (by omega)
            · exact Or.inl (by omega)
          · rcases h2 with h2 | ⟨f2, L2⟩
            · exact Or.inl (by omega)
            · exact Or.inr ⟨by omega, lexLt_neg_trans L1 L2⟩

theorem tierLE_total (ns fs : SearchIndexEntry → Nat) (a b : SearchIndexEntry) :
    tierLE ns fs a b ∨ tierLE ns fs b a := by
  unfold tierLE
  by_cases pa : 0 < ns a <;> by_cases pb : 0 < ns b
  · by_cases e : ns a = ns b
    · by_cases f : fs a = fs b
      · cases hL : lexLt b.displayName.data a.displayName.data
        · exact Or.inl (Or.inr ⟨by tauto, Or.inr ⟨e, Or.inr ⟨f, rfl⟩⟩⟩)
        · exact Or.inr (Or.inr ⟨by tauto, Or.inr ⟨e.symm, Or.inr ⟨f.symm, lexLt_asymm hL⟩⟩⟩)
      · rcases Nat.lt_or_ge (fs a) (fs b) with hf | hf
        · exact Or.inr (Or.inr ⟨by tauto, Or.inr ⟨e.symm, Or.inl (by omega)⟩⟩)
        · exact Or.inl (Or.inr ⟨by tauto, Or.inr ⟨e, Or.inl (by omega)⟩⟩)
    · rcases Nat.lt_or_ge (ns a) (ns b) with hn | hn
      · exact Or.inr (Or.inr ⟨by tauto, Or.inl hn⟩)
      · exact Or.inl (Or.inr ⟨by tauto, Or.inl (by omega)⟩)
  · exact Or.inl (Or.inl ⟨pa, by omega⟩)
  · exact Or.inr (Or.inl ⟨pb, by omega⟩)
  · by_cases f : fs a = fs b
    · cases hL : lexLt b.displayName.data a.displayName.data
      · exact Or.inl (Or.inr ⟨by tauto, Or.inr ⟨by omega, Or.inr ⟨f, rfl⟩⟩⟩)
      · exact Or.inr (Or.inr ⟨by tauto, Or.inr ⟨by omega, Or.inr ⟨f.symm, lexLt_asymm hL⟩⟩⟩)
    · rcases Nat.lt_or_ge (fs a) (fs b) with hf | hf
      · exact Or.inr (Or.inr ⟨by tauto, Or.inr ⟨by omega, Or.inl (by omega)⟩⟩)
      · exact Or.inl (Or.inr ⟨by tauto, Or.inr ⟨by omega, Or.inl (by omega)⟩⟩)

/-- The name-affinity function a given query induces on entries. -/
def queryNameScore (query : String) (e : SearchIndexEntry) : Nat :=
  getNameScore ((searchTerms query).map jsToLower) e.displayName

/-- The field-priority score a given query (and Flexsearch oracle) induces. -/
def queryFieldScore (flex : FlexIndex) (query : String) (limit : Nat)
    (e : SearchIndexEntry) : Nat :=
  (jmGet (collectFieldScores flex limit (searchTerms query)) e.id).getD 0

theorem searchRanked_pairwise (documents : List SearchIndexEntry) (flex : FlexIndex)
    (query : String) (limit : Nat) :
    (searchRanked documents flex query limit).Pairwise
      (tierLE (queryNameScore query) (queryFieldScore flex query limit)) := by
  unfold searchRanked
  have h := @insSort_pairwise SearchIndexEntry
    (fun a b =>
      decide (searchCmp ((searchTerms query).map jsToLower)
        (collectFieldScores flex limit (searchTerms query)) a b ≤ 0))
    (fun a b c h1 h2 => by
      rw [decide_eq_true_eq] at h1 h2 ⊢
      rw [searchCmp_nonpos_iff] at h1 h2 ⊢
      exact tierLE_trans _ _ h1 h2)
    (fun a b => by
      rcases tierLE_total (fun e => getNameScore ((searchTerms query).map jsToLower) e.displayName)
        (fun e => (jmGet (collectFieldScores flex limit (searchTerms query)) e.id).getD 0) a b
        with h | h
      · exact Or.inl (by rw [decide_eq_true_eq, searchCmp_nonpos_iff]; exact h)
      · exact Or.inr (by rw [decide_eq_true_eq, searchCmp_nonpos_iff]; exact h))
    (searchCandidates documents flex query limit)
  refine h.imp ?_
  intro a b hab
  rw [decide_eq_true_eq, searchCmp_nonpos_iff] at hab
  exact hab

/-- Claim C1: for every index oracle and every query, the returned list is
sorted by the four-tier comparator — (a) positive name affinity first,
(b) higher affinity within a bucket, (c) field-priority score, (d)
alphabetical display name — and in particular no zero-affinity result ever
ranks above a positive-affinity result. -/
theorem search_results_sorted_four_tiers (documents : List SearchIndexEntry)
    (flex : FlexIndex) (query : String) (limit : Nat) :
    ((search documents flex query limit).Pairwise
      (tierLE (queryNameScore query) (queryFieldScore flex query limit))) ∧
    ((search documents flex query limit).Pairwise
      (fun a b => 0 < queryNameScore query b → 0 < queryNameScore query a)) := by
  have h : (search documents flex query limit).Pairwise
      (tierLE (queryNameScore query) (queryFieldScore flex query limit)) :=
    List.Pairwise.sublist (List.take_sublist _ _) (searchRanked_pairwise documents flex query limit)
  refine ⟨h, h.imp ?_⟩
  intro a b hab hb
  rcases hab with ⟨ha, _⟩ | ⟨hiff, _⟩
  · exact ha
  · exact hiff.mpr hb

/-- Claim C7: the candidate set is truncated to the caller's limit only after
the full ranking pass — the result is exactly the first `min limit candidates`
entries of the completely ranked candidate list, and nothing cut off ranks
above anything returned. -/
theorem search_truncates_after_ranking (documents : List SearchIndexEntry)
    (flex : FlexIndex) (query : String) (limit : Nat) :
    search documents flex query limit = (searchRanked documents flex query limit).take limit ∧
    (searchRanked documents flex query limit).Perm
      (searchCandidates documents flex query limit) ∧
    (search documents flex query limit).length
      = min limit (searchCandidates documents flex query limit).length ∧
    ∀ a ∈ search documents flex query limit,
      ∀ b ∈ (searchRanked documents flex query limit).drop limit,
        tierLE (queryNameScore query) (queryFieldScore flex query limit) a b := by
  refine ⟨rfl, insSort_perm _ _, ?_, ?_⟩
  · have hlen : (searchRanked documents flex query limit).length
        = (searchCandidates documents flex query limit).length :=
      (insSort_perm _ _).length_eq
    simp [search, List.length_take, hlen]
  · have h := searchRanked_pairwise documents flex query limit
    rw [← List.take_append_drop limit (searchRanked documents flex query limit)] at h
    exact (List.pairwise_append.mp h).2.2

/-! ## Setting grouping (`src/lib/settings-grouping.ts`) -/

/-- `applicability` payload (only the fields the code reads). -/
structure Applicability where
  platform : Option String := none
  technologies : Option String := none
deriving DecidableEq

/-- A raw Graph setting definition, with the fields the four algorithms read.
`odataType` stands for the `@odata.type` discriminator. -/
structure SettingDefinition where
  id : String
  name : Option String := none
  displayName : Option String := none
  description : Option String := none
  helpText : Option String := none
  version : Option String := none
  categoryId : String := ""
  rootDefinitionId : Option String := none
  baseUri : Option String := none
  offsetUri : Option String := none
  odataType : Option String := none
  options : Option (List String) := none
  valueDefinition : Option String := none
  applicability : Option Applicability := none
  keywords : Option (List String) := none
deriving DecidableEq

/-- `getCspPath`: `baseUri && offsetUri ? baseUri + '/' + offsetUri : baseUri || offsetUri || ''`. -/
def getCspPath (s : SettingDefinition) : String :=
  if truthy s.baseUri && truthy s.offsetUri then
    getStr s.baseUri ++ "/" ++ getStr s.offsetUri
  else getStr (jsOr s.baseUri s.offsetUri)

/-- `s['@odata.type']?.includes(needle)` (false when the field is absent). -/
def odataIncludes (s : SettingDefinition) (needle : String) : Bool :=
  match s.odataType with
  | some t => occursIn needle.data t.data
  | none => false

/-- `isSyntheticGroupContainer`. -/
def isSyntheticGroupContainer (s : SettingDefinition) : Bool :=
  odataIncludes s "SettingGroupCollectionDefinition" &&
    s.displayName == some "Top Level Setting Group Collection"

/-- `isRootSetting`: no (truthy) parent id, or self-referencing. -/
def isRootSetting (s : SettingDefinition) : Bool :=
  !truthy s.rootDefinitionId || s.rootDefinitionId == some s.id

/-- The `settingById` lookup map (`Map.set` in input order: last write wins). -/
def settingById (settings : List SettingDefinition) (id : String) : Option SettingDefinition :=
  List.find? (fun s => s.id == id) settings.reverse

/-- The mutable state of `groupSettings` before collection grouping. -/
structure GroupState where
  rootSettings : List SettingDefinition
  rootIds : List String
  childMap : JsMap (List SettingDefinition)
  syntheticGroupIds : List String
deriving DecidableEq

/-- One iteration of the first pass. -/
def passOneStep (st : GroupState) (s : SettingDefinition) : GroupState :=
  if isRootSetting s then
    if isSyntheticGroupContainer s then
      { st with syntheticGroupIds := st.syntheticGroupIds ++ [s.id] }
    else
      { st with rootSettings := st.rootSettings ++ [s], rootIds := st.rootIds ++ [s.id] }
  else st

/-- First pass: identify root settings, skipping synthetic group containers. -/
def passOne (settings : List SettingDefinition) : GroupState :=
  settings.foldl passOneStep ⟨[], [], [], []⟩

/-- JS `const parent = settingById.get(id); if (parent && getCspPath(s) === getCspPath(parent))`:
the child is a content-free duplicate of its (present) parent. -/
def duplicateOfParent (settings : List SettingDefinition) (s : SettingDefinition) : Bool :=
  match settingById settings (getStr s.rootDefinitionId) with
  | some parent => getCspPath s == getCspPath parent
  | none => false

/-- Append a child to its parent's list in the child map. -/
def childAttach (st : GroupState) (s : SettingDefinition) : GroupState :=
  { st with childMap := jmSet st.childMap (getStr s.rootDefinitionId) (((jmGet st.childMap (getStr s.rootDefinitionId)).getD []) ++ [s]) }

/-- One iteration of the second pass: attach a child under its parent, drop it
when its CSP path equals the parent's, or promote it to root. -/
def passTwoStep (settings : List SettingDefinition) (st : GroupState)
    (s : SettingDefinition) : GroupState :=
  if truthy s.rootDefinitionId && s.rootDefinitionId != some s.id then
    if st.syntheticGroupIds.contains (getStr s.rootDefinitionId) then
      { st with rootSettings := st.rootSettings ++ [s], rootIds := st.rootIds ++ [s.id] }
    else if st.rootIds.contains (getStr s.rootDefinitionId) then
      if duplicateOfParent settings s then st else childAttach st s
    else
      { st with rootSettings := st.rootSettings ++ [s], rootIds := st.rootIds ++ [s.id] }
  else st

/-- Second pass over all settings. -/
def passTwo (settings : List SettingDefinition) : GroupState :=
  settings.foldl (passTwoStep settings) (passOne settings)

/-- The repetition marker of collection items (`[{0}]`). -/
def collectionMarker : String := "[\x7b0\x7d]"

/-- The prefix delimiter searched with `indexOf` (`/[{0}]`). -/
def slashCollectionMarker : String := "/[\x7b0\x7d]"

/-- Collection headers among root settings, keyed by `offsetUri`. -/
def collectionHeaders (roots : List SettingDefinition) : JsMap SettingDefinition :=
  roots.foldl (fun m s =>
    if odataIncludes s "SettingGroupCollectionDefinition" && truthy s.offsetUri &&
        !occursIn collectionMarker.data (getStr s.offsetUri).data then
      jmSet m (getStr s.offsetUri) s
    else m) []

/-- Resolve the collection header a setting should be nested under: the
marker must occur in `offsetUri`, `indexOf('/[{0}]')` must succeed, and the
prefix must key a header. -/
def collectionItemTarget (headers : JsMap SettingDefinition) (s : SettingDefinition) :
    Option SettingDefinition :=
  if !truthy s.offsetUri || !occursIn collectionMarker.data (getStr s.offsetUri).data then none
  else match splitFirst slashCollectionMarker.data (getStr s.offsetUri).data with
    | none => none
    | some (pre, _) => jmGet headers pre.asString

/-- One iteration of the first collection loop: move a matching root setting
under its header and mark it for removal from the root list. -/
def loopOneStep (headers : JsMap SettingDefinition)
    (acc : JsMap (List SettingDefinition) × List String) (s : SettingDefinition) :
    JsMap (List SettingDefinition) × List String :=
  match collectionItemTarget headers s with
  | some header =>
    (jmSet acc.1 header.id (((jmGet acc.1 header.id).getD []) ++ [s]), acc.2 ++ [s.id])
  | none => acc

/-- First collection loop over the root settings. -/
def loopOne (headers : JsMap SettingDefinition) (roots : List SettingDefinition)
    (cm : JsMap (List SettingDefinition)) : JsMap (List SettingDefinition) × List String :=
  roots.foldl (loopOneStep headers) (cm, [])

/-- One child of the second collection loop: re-parent it under another
header, or keep it in the current list. -/
def loopTwoChild (headers : JsMap SettingDefinition) (parentId : String)
    (acc : JsMap (List SettingDefinition) × List SettingDefinition)
    (child : SettingDefinition) : JsMap (List SettingDefinition) × List SettingDefinition :=
  match collectionItemTarget headers child with
  | some header =>
    if header.id != parentId then
      (jmSet acc.1 header.id (((jmGet acc.1 header.id).getD []) ++ [child]), acc.2)
    else (acc.1, acc.2 ++ [child])
  | none => (acc.1, acc.2 ++ [child])

/-- Second collection loop: a live iteration over the child map (JS `Map`
iteration visits entries appended during the loop), with fuel for
termination; the caller passes fuel exceeding every reachable entry count. -/
def loopTwo (headers : JsMap SettingDefinition) :
    Nat → Nat → JsMap (List SettingDefinition) → JsMap (List SettingDefinition)
  | 0, _, cm => cm
  | fuel + 1, i, cm =>
    match cm[i]? with
    | none => cm
    | some (parentId, children) =>
      if (jmGet headers parentId).isSome then loopTwo headers fuel (i + 1) cm
      else
        let step := children.foldl (loopTwoChild headers parentId) (cm, [])
        let cm2 := if step.2.length != children.length then jmSet step.1 parentId step.2
          else step.1
        loopTwo headers fuel (i + 1) cm2

/-- Total number of children across the child map. -/
def cmSize (cm : JsMap (List SettingDefinition)) : Nat := (cm.map (·.2.length)).sum

/-- `displayName || name || ''`, the sort key of the final alphabetical sorts. -/
def settingSortName (s : SettingDefinition) : String := getStr (jsOr s.displayName s.name)

/-- The comparator of the final sorts, as a boolean "≤". -/
def settingNameLE (a b : SettingDefinition) : Bool :=
  localeCompare (settingSortName a) (settingSortName b) ≤ 0

/-- Alphabetical sort by display name (fallback internal name). -/
def sortSettings (l : List SettingDefinition) : List SettingDefinition :=
  insSort settingNameLE l

/-- The result of `groupSettings`. -/
structure GroupResult where
  rootSettings : List SettingDefinition
  childMap : JsMap (List SettingDefinition)
deriving DecidableEq

/-- The collection headers of a grouping run (the JS `collectionHeaders`). -/
def gHeaders (settings : List SettingDefinition) : JsMap SettingDefinition :=
  collectionHeaders (passTwo settings).rootSettings

/-- The result of the first collection loop (child map after root moves, and
the `toRemoveFromRoot` id list). -/
def gMoved (settings : List SettingDefinition) :
    JsMap (List SettingDefinition) × List String :=
  loopOne (gHeaders settings) (passTwo settings).rootSettings (passTwo settings).childMap

/-- The pre-sort stage of `groupSettings`: passes one and two, then the two
collection loops and the root-list removal. -/
def groupedPair (settings : List SettingDefinition) :
    List SettingDefinition × JsMap (List SettingDefinition) :=
  if (gHeaders settings).length > 0 then
    (if (gMoved settings).2.length > 0 then
        (passTwo settings).rootSettings.filter (fun s => !(gMoved settings).2.contains s.id)
      else (passTwo settings).rootSettings,
      loopTwo (gHeaders settings)
        ((gMoved settings).1.length + cmSize (gMoved settings).1 + 1) 0 (gMoved settings).1)
  else ((passTwo settings).rootSettings, (passTwo settings).childMap)

/-- `groupSettings`: root identification, child attachment with CSP-path
dedup, orphan promotion, collection nesting, final alphabetical sorts. -/
def groupSettings (settings : List SettingDefinition) : GroupResult :=
  { rootSettings := sortSettings (groupedPair settings).1
    childMap := (groupedPair settings).2.map (fun p => (p.1, sortSettings p.2)) }

/-! ### Association-map lemmas -/

theorem jmGet_cons {α : Type} (p : String × α) (rest : JsMap α) (k : String) :
    jmGet (p :: rest) k = if p.1 == k then some p.2 else jmGet rest k := by
  by_cases h : p.1 == k <;> simp [jmGet, List.find?, h]

theorem jmGet_jmSet_self {α : Type} (m : JsMap α) (k : String) (v : α) :
    jmGet (jmSet m k v) k = some v := by
  induction m with
  | nil => simp [jmSet, jmGet, List.find?]
  | cons p rest ih =>
    by_cases h : p.1 == k
    · simp [jmSet, h, jmGet_cons]
    · simp [jmSet, h, jmGet_cons, ih]

theorem jmGet_jmSet_ne {α : Type} (m : JsMap α) {k k' : String} (v : α) (h : k' ≠ k) :
    jmGet (jmSet m k v) k' = jmGet m k' := by
  have hk : ((k : String) == k') = false := by
    simp only [beq_eq_false_iff_ne, ne_eq]
    exact fun hh => h hh.symm
  induction m with
  | nil => simp [jmSet, jmGet, List.find?, hk]
  | cons p rest ih =>
    by_cases hp : p.1 == k
    · have hp' : (p.1 == k') = false := by
        simp only [beq_iff_eq] at hp
        simp only [beq_eq_false_iff_ne, ne_eq, hp]
        exact fun hh => h hh.symm
      simp [jmSet, hp, jmGet_cons, hp', hk]
    · simp [jmSet, hp, jmGet_cons, ih]

theorem jmGet_mem {α : Type} {m : JsMap α} {k : String} {v : α}
    (h : jmGet m k = some v) : (k, v) ∈ m := by
  induction m with
  | nil => simp [jmGet, List.find?] at h
  | cons p rest ih =>
    rw [jmGet_cons] at h
    by_cases hp : p.1 == k
    · rw [if_pos hp] at h
      obtain ⟨p1, p2⟩ := p
      simp only [beq_iff_eq] at hp
      obtain rfl : p1 = k := hp
      obtain rfl : p2 = v := by simpa using h
      exact List.mem_cons_self _ _
    · rw [if_neg (by simpa using hp)] at h
      exact List.mem_cons_of_mem _ (ih h)

theorem jmSet_forall {α : Type} {Q : String × α → Prop} {m : JsMap α} {k : String} {v : α}
    (hm : ∀ e ∈ m, Q e) (hv : Q (k, v)) : ∀ e ∈ jmSet m k v, Q e := by
  induction m with
  | nil => simpa [jmSet] using hv
  | cons p rest ih =>
    by_cases hp : p.1 == k
    · simp only [jmSet, hp, ite_true]
      intro e he
      rcases List.mem_cons.mp he with rfl | he
      · exact hv
      · exact hm e (List.mem_cons_of_mem _ he)
    · simp only [jmSet, hp, Bool.false_eq_true, ite_false]
      intro e he
      rcases List.mem_cons.mp he with rfl | he
      · exact hm e (List.mem_cons_self _ _)
      · exact ih (fun e' he' => hm e' (List.mem_cons_of_mem _ he')) e he

theorem jmSet_keys {α : Type} (m : JsMap α) (k : String) (v : α) :
    (jmSet m k v).map (·.1) =
      if (m.map (·.1)).contains k then m.map (·.1) else m.map (·.1) ++ [k] := by
  induction m with
  | nil => simp [jmSet]
  | cons p rest ih =>
    by_cases hp : p.1 == k
    · have hkp : ((k : String) == p.1) = true := by
        simp only [beq_iff_eq] at hp ⊢
        exact hp.symm
      simp [jmSet, hp, List.contains_cons, hkp]
      exact ((beq_iff_eq).mp hp).symm
    · have hkp : ((k : String) == p.1) = false := by
        simp only [beq_iff_eq] at hp
        simp only [beq_eq_false_iff_ne, ne_eq]
        exact fun hh => hp (by simp [hh])
      simp only [jmSet, hp, Bool.false_eq_true, ite_false, List.map_cons, List.contains_cons,
        hkp, Bool.false_or, ih]
      split <;> simp

/-! ### Counting and membership across a child map -/

/-- Number of elements satisfying `p` across all lists of a child map. -/
def cmCountP {β : Type} (p : β → Bool) (cm : JsMap (List β)) : Nat :=
  (cm.map (fun e => e.2.countP p)).sum

theorem cmCountP_push {β : Type} (p : β → Bool) (cm : JsMap (List β)) (k : String) (x : β) :
    cmCountP p (jmSet cm k (((jmGet cm k).getD []) ++ [x]))
      = cmCountP p cm + (if p x then 1 else 0) := by
  induction cm with
  | nil =>
    simp [cmCountP, jmSet, jmGet, List.find?, List.countP_cons, List.countP_nil]
  | cons e rest ih =>
    rw [jmGet_cons]
    by_cases he : e.1 == k
    · rw [if_pos he]
      simp only [Option.getD_some]
      simp only [jmSet, he, ite_true, cmCountP, List.map_cons, List.sum_cons,
        List.countP_append, List.countP_cons, List.countP_nil]
      omega
    · rw [if_neg (by simpa using he)]
      simp only [jmSet, he, Bool.false_eq_true, ite_false, cmCountP, List.map_cons,
        List.sum_cons]
      have := ih
      simp only [cmCountP] at this
      omega

theorem cmMem_push {β : Type} {cm : JsMap (List β)} {c : β} (k : String) (x : β)
    (h : ∃ e ∈ cm, c ∈ e.2) :
    ∃ e ∈ jmSet cm k (((jmGet cm k).getD []) ++ [x]), c ∈ e.2 := by
  obtain ⟨e, he, hc⟩ := h
  induction cm with
  | nil => simp at he
  | cons p rest ih =>
    rw [jmGet_cons]
    by_cases hp : p.1 == k
    · rw [if_pos hp]
      simp only [Option.getD_some]
      simp only [jmSet, hp, ite_true]
      rcases List.mem_cons.mp he with rfl | he2
      · exact ⟨(k, e.2 ++ [x]), List.mem_cons_self _ _, List.mem_append_left _ hc⟩
      · exact ⟨e, List.mem_cons_of_mem _ he2, hc⟩
    · rw [if_neg (by simpa using hp)]
      simp only [jmSet, hp, Bool.false_eq_true, ite_false]
      rcases List.mem_cons.mp he with rfl | he2
      · exact ⟨e, List.mem_cons_self _ _, hc⟩
      · obtain ⟨e2, he3, hc2⟩ := ih he2
        exact ⟨e2, List.mem_cons_of_mem _ he3, hc2⟩

theorem cmMem_push_self {β : Type} (cm : JsMap (List β)) (k : String) (x : β) :
    ∃ e ∈ jmSet cm k (((jmGet cm k).getD []) ++ [x]), x ∈ e.2 :=
  ⟨(k, ((jmGet cm k).getD []) ++ [x]), jmGet_mem (jmGet_jmSet_self _ _ _),
    List.mem_append_right _ (List.mem_cons_self _ _)⟩

theorem cmForall_push {β : Type} {Q : String → β → Prop} {cm : JsMap (List β)}
    (hcm : ∀ e ∈ cm, ∀ c ∈ e.2, Q e.1 c) (k : String) {x : β} (hx : Q k x) :
    ∀ e ∈ jmSet cm k (((jmGet cm k).getD []) ++ [x]), ∀ c ∈ e.2, Q e.1 c := by
  apply jmSet_forall hcm
  intro c hc
  rcases List.mem_append.mp hc with hc | hc
  · cases hres : jmGet cm k with
    | none => simp [hres] at hc
    | some old =>
      rw [hres] at hc
      exact hcm (k, old) (jmGet_mem hres) c hc
  · rcases List.mem_singleton.mp hc with rfl
    exact hx

/-! ### Collection-item facts -/

/-- A setting whose `offsetUri` carries the repetition marker `/[{0}]`. -/
def isCollectionItem (c : SettingDefinition) : Bool :=
  truthy c.offsetUri && occursIn slashCollectionMarker.data (getStr c.offsetUri).data

theorem splitFirst_isSome_occursIn : ∀ {needle l : List Char},
    (splitFirst needle l).isSome = true → occursIn needle l = true
  | needle, [], h => by
    simp only [splitFirst] at h
    split at h
    · simpa [occursIn] using ‹needle.isEmpty = true›
    · simp at h
  | needle, c :: t, h => by
    simp only [splitFirst] at h
    split at h
    · simp [occursIn, ‹needle.isPrefixOf (c :: t) = true›]
    · simp only [occursIn, Bool.or_eq_true]
      split at h
      · next heq =>
        exact Or.inr (splitFirst_isSome_occursIn (by simp [heq]))
      · simp at h

theorem collectionItemTarget_isCollectionItem {headers : JsMap SettingDefinition}
    {s h : SettingDefinition} (ht : collectionItemTarget headers s = some h) :
    isCollectionItem s = true := by
  unfold collectionItemTarget at ht
  split at ht
  · simp at ht
  · next hcond =>
    simp only [Bool.or_eq_true, Bool.not_eq_true', not_or] at hcond
    push_neg at hcond
    split at ht
    · simp at ht
    · next pre post heq =>
      simp only [isCollectionItem, Bool.and_eq_true]
      refine ⟨by simpa using hcond.1, ?_⟩
      exact splitFirst_isSome_occursIn (by simp [heq])

/-! ### The path-dedup invariant (claim C2) -/

/-- What the code guarantees of a child sitting under key `k`: if its CSP
path equals the path of the setting `k` resolves to, the child must be a
collection item (only collection re-parenting skips the path check). -/
def childOk (settings : List SettingDefinition) (k : String) (c : SettingDefinition) : Prop :=
  ∀ sp, settingById settings k = some sp → getCspPath c = getCspPath sp →
    isCollectionItem c = true

/-- The invariant over a whole child map. -/
def pathDedupOk (settings : List SettingDefinition) (cm : JsMap (List SettingDefinition)) : Prop :=
  ∀ e ∈ cm, ∀ c ∈ e.2, childOk settings e.1 c

theorem childAttach_childOk (settings : List SettingDefinition) (st : GroupState)
    (s : SettingDefinition) (h : pathDedupOk settings st.childMap)
    (hs : childOk settings (getStr s.rootDefinitionId) s) :
    pathDedupOk settings (childAttach st s).childMap :=
  cmForall_push h _ hs

theorem passTwoStep_pathDedupOk (settings : List SettingDefinition) (st : GroupState)
    (s : SettingDefinition) (h : pathDedupOk settings st.childMap) :
    pathDedupOk settings (passTwoStep settings st s).childMap := by
  unfold passTwoStep
  by_cases h1 : (truthy s.rootDefinitionId && s.rootDefinitionId != some s.id) = true
  · rw [if_pos h1]
    by_cases h2 : st.syntheticGroupIds.contains (getStr s.rootDefinitionId) = true
    · rw [if_pos h2]
      exact h
    · rw [if_neg h2]
      by_cases h3 : st.rootIds.contains (getStr s.rootDefinitionId) = true
      · rw [if_pos h3]
        by_cases h4 : duplicateOfParent settings s = true
        · rw [if_pos h4]
          exact h
        · rw [if_neg h4]
          refine childAttach_childOk settings st s h ?_
          intro sp hsp hp
          exfalso
          apply h4
          unfold duplicateOfParent
          rw [hsp]
          simpa using hp
      · rw [if_neg h3]
        exact h
  · rw [if_neg h1]
    exact h

theorem passTwo_foldl_pathDedupOk (settings : List SettingDefinition) :
    ∀ (l : List SettingDefinition) (st : GroupState),
      pathDedupOk settings st.childMap →
      pathDedupOk settings (l.foldl (passTwoStep settings) st).childMap := by
  intro l
  induction l with
  | nil => exact fun st h => h
  | cons s rest ih =>
    intro st h
    exact ih _ (passTwoStep_pathDedupOk settings st s h)

theorem loopOneStep_pathDedupOk (settings : List SettingDefinition)
    (headers : JsMap SettingDefinition) (acc : JsMap (List SettingDefinition) × List String)
    (s : SettingDefinition) (h : pathDedupOk settings acc.1) :
    pathDedupOk settings (loopOneStep headers acc s).1 := by
  rcases htgt : collectionItemTarget headers s with _ | header
  · simpa [loopOneStep, htgt] using h
  · simp only [loopOneStep, htgt]
    exact cmForall_push h _ (fun _ _ _ => collectionItemTarget_isCollectionItem htgt)

theorem loopOne_foldl_pathDedupOk (settings : List SettingDefinition)
    (headers : JsMap SettingDefinition) :
    ∀ (roots : List SettingDefinition) (acc : JsMap (List SettingDefinition) × List String),
      pathDedupOk settings acc.1 →
      pathDedupOk settings (roots.foldl (loopOneStep headers) acc).1 := by
  intro roots
  induction roots with
  | nil => exact fun acc h => h
  | cons s rest ih =>
    intro acc h
    exact ih _ (loopOneStep_pathDedupOk settings headers acc s h)

theorem loopTwoChild_fold_pathDedupOk (settings : List SettingDefinition)
    (headers : JsMap SettingDefinition) (parentId : String) :
    ∀ (children : List SettingDefinition)
      (acc : JsMap (List SettingDefinition) × List SettingDefinition),
      pathDedupOk settings acc.1 →
      (∀ c ∈ acc.2, childOk settings parentId c) →
      (∀ c ∈ children, childOk settings parentId c) →
      pathDedupOk settings (children.foldl (loopTwoChild headers parentId) acc).1 ∧
        ∀ c ∈ (children.foldl (loopTwoChild headers parentId) acc).2,
          childOk settings parentId c := by
  intro children
  induction children with
  | nil => exact fun acc h1 h2 _ => ⟨h1, h2⟩
  | cons child rest ih =>
    intro acc h1 h2 h3
    have hchild := h3 child (List.mem_cons_self _ _)
    have h3' : ∀ c ∈ rest, childOk settings parentId c :=
      fun c hc => h3 c (List.mem_cons_of_mem _ hc)
    have happ : ∀ c ∈ acc.2 ++ [child], childOk settings parentId c := by
      intro c hc
      rcases List.mem_append.mp hc with hc | hc
      · exact h2 c hc
      · rcases List.mem_singleton.mp hc with rfl
        exact hchild
    rcases htgt : collectionItemTarget headers child with _ | header
    · simp only [List.foldl_cons, loopTwoChild, htgt]
      exact ih _ h1 happ h3'
    · simp only [List.foldl_cons, loopTwoChild, htgt]
      by_cases h5 : (header.id != parentId) = true
      · rw [if_pos h5]
        exact ih _
          (cmForall_push h1 _ (fun _ _ _ => collectionItemTarget_isCollectionItem htgt))
          h2 h3'
      · rw [if_neg h5]
        exact ih _ h1 happ h3'

theorem loopTwo_pathDedupOk (settings : List SettingDefinition)
    (headers : JsMap SettingDefinition) :
    ∀ (fuel i : Nat) (cm : JsMap (List SettingDefinition)),
      pathDedupOk settings cm → pathDedupOk settings (loopTwo headers fuel i cm) := by
  intro fuel
  induction fuel with
  | zero => exact fun i cm h => h
  | succ fuel ih =>
    intro i cm h
    rcases hget : cm[i]? with _ | ⟨parentId, children⟩
    · simpa only [loopTwo, hget] using h
    · simp only [loopTwo, hget]
      by_cases hh : (jmGet headers parentId).isSome = true
      · rw [if_pos hh]
        exact ih _ _ h
      · rw [if_neg hh]
        have hmem : (parentId, children) ∈ cm := List.getElem?_mem hget
        have hch : ∀ c ∈ children, childOk settings parentId c :=
          fun c hc => h _ hmem c hc
        have hfold := loopTwoChild_fold_pathDedupOk settings headers parentId children (cm, [])
          h (by simp) hch
        by_cases hlen :
            ((children.foldl (loopTwoChild headers parentId) (cm, [])).2.length
              != children.length) = true
        · rw [if_pos hlen]
          exact ih _ _ (jmSet_forall hfold.1 hfold.2)
        · rw [if_neg hlen]
          exact ih _ _ hfold.1

/-- Claim C2 counterexample input: a collection header whose CSP path equals
that of its re-parented item. -/
def c2Header : SettingDefinition :=
  { id := "h", displayName := some "H"
    odataType := some "#microsoft.graph.deviceManagementConfigurationSettingGroupCollectionDefinition"
    baseUri := some "A/x/[\x7b0\x7d]", offsetUri := some "x" }

/-- Claim C2 counterexample input: a root collection item whose CSP path
equals the header's. -/
def c2Child : SettingDefinition :=
  { id := "c", displayName := some "C"
    baseUri := some "A", offsetUri := some "x/[\x7b0\x7d]/x" }

/-- Claim C2 is false as stated: on this two-setting input, the child `c`
appears in `childMap` under parent `h` although its configuration path equals
the parent's — collection re-parenting skips the path-equality drop. -/
theorem groupSettings_keeps_path_equal_collection_child :
    ∃ e ∈ (groupSettings [c2Header, c2Child]).childMap,
      e.1 = "h" ∧ c2Child ∈ e.2 ∧
      settingById [c2Header, c2Child] "h" = some c2Header ∧
      getCspPath c2Child = getCspPath c2Header := by decide

theorem passOneStep_childMap (st : GroupState) (s : SettingDefinition) :
    (passOneStep st s).childMap = st.childMap := by
  unfold passOneStep
  split_ifs <;> rfl

theorem passOne_childMap (settings : List SettingDefinition) :
    (passOne settings).childMap = [] := by
  unfold passOne
  suffices h : ∀ st : GroupState, (settings.foldl passOneStep st).childMap = st.childMap from
    h ⟨[], [], [], []⟩
  induction settings with
  | nil => exact fun st => rfl
  | cons s rest ih =>
    intro st
    rw [List.foldl_cons, ih, passOneStep_childMap]

theorem groupedPair_pathDedupOk (settings : List SettingDefinition) :
    pathDedupOk settings (groupedPair settings).2 := by
  have hpass : pathDedupOk settings (passTwo settings).childMap := by
    refine passTwo_foldl_pathDedupOk settings settings (passOne settings) ?_
    rw [passOne_childMap]
    intro e he
    simp at he
  unfold groupedPair
  by_cases hh : (gHeaders settings).length > 0
  · rw [if_pos hh]
    exact loopTwo_pathDedupOk settings _ _ _ _
      (loopOne_foldl_pathDedupOk settings _ _ _ hpass)
  · rw [if_neg hh]
    exact hpass

/-- Claim C2, amended: a child under key `k` in `childMap` whose configuration
path equals the path of the setting `k` resolves to must be a collection item
(its `offsetUri` carries the `/[{0}]` repetition marker); equivalently, the
path-equality drop holds for every non-collection child. -/
theorem groupSettings_path_dedup_or_collection (settings : List SettingDefinition)
    (e : String × List SettingDefinition)
    (he : e ∈ (groupSettings settings).childMap)
    (c : SettingDefinition) (hc : c ∈ e.2) (sp : SettingDefinition)
    (hsp : settingById settings e.1 = some sp)
    (hpath : getCspPath c = getCspPath sp) :
    isCollectionItem c = true := by
  simp only [groupSettings, List.mem_map] at he
  obtain ⟨p, hp, rfl⟩ := he
  have hc' : c ∈ p.2 := (insSort_perm settingNameLE p.2).mem_iff.mp hc
  exact groupedPair_pathDedupOk settings p hp c hc' sp hsp hpath

/-- Witness for the amended claim C2 at the counterexample input: the child
is indeed re-parented under the header with an equal path, and the theorem
certifies it carries the collection marker. -/
theorem groupSettings_path_dedup_or_collection_witness :
    (("h", [c2Child]) ∈ (groupSettings [c2Header, c2Child]).childMap ∧
      c2Child ∈ [c2Child] ∧
      settingById [c2Header, c2Child] "h" = some c2Header ∧
      getCspPath c2Child = getCspPath c2Header) ∧
    isCollectionItem c2Child = true :=
  ⟨by decide,
    groupSettings_path_dedup_or_collection [c2Header, c2Child] ("h", [c2Child]) (by decide)
      c2Child (by decide) c2Header (by decide) (by decide)⟩

/-! ### Key-uniqueness machinery for the child map -/

theorem jmSet_keys_nodup {α : Type} {m : JsMap α} (h : (m.map (·.1)).Nodup)
    (k : String) (v : α) : ((jmSet m k v).map (·.1)).Nodup := by
  rw [jmSet_keys]
  split
  · exact h
  · next hc =>
    rw [List.nodup_append]
    refine ⟨h, List.nodup_singleton _, ?_⟩
    intro a ha hb
    rcases List.mem_singleton.mp hb with rfl
    exact (by simpa using hc : ¬ _ ∈ _) ha

theorem jmSet_mem_ne {α : Type} {m : JsMap α} {e : String × α} (he : e ∈ m) {k : String}
    (hk : e.1 ≠ k) (v : α) : e ∈ jmSet m k v := by
  induction m with
  | nil => simp at he
  | cons p rest ih =>
    rcases List.mem_cons.mp he with rfl | he2
    · have hp : (e.1 == k) = false := by simpa using hk
      simp only [jmSet, hp, Bool.false_eq_true, ite_false]
      exact List.mem_cons_self _ _
    · by_cases hp : p.1 == k
      · simp only [jmSet, hp, ite_true]
        exact List.mem_cons_of_mem _ he2
      · simp only [jmSet, hp, Bool.false_eq_true, ite_false]
        exact List.mem_cons_of_mem _ (ih he2)

theorem jmGet_of_mem_nodup {α : Type} {m : JsMap α} (h : (m.map (·.1)).Nodup)
    {k : String} {v : α} (hm : (k, v) ∈ m) : jmGet m k = some v := by
  induction m with
  | nil => simp at hm
  | cons p rest ih =>
    rcases List.mem_cons.mp hm with rfl | hm2
    · simp [jmGet_cons]
    · rw [jmGet_cons]
      have hne : p.1 ≠ k := by
        intro hkp
        have : p.1 ∈ rest.map (·.1) := hkp ▸ List.mem_map_of_mem (·.1) hm2
        simp only [List.map_cons, List.nodup_cons] at h
        exact h.1 this
      rw [if_neg (by simpa using hne)]
      exact ih (by simpa [List.map_cons, List.nodup_cons] using h.of_cons) hm2

theorem cmCountP_jmSet {β : Type} (p : β → Bool) {m : JsMap (List β)} {k : String}
    {old : List β} (h : jmGet m k = some old) (v : List β) :
    cmCountP p (jmSet m k v) + old.countP p = cmCountP p m + v.countP p := by
  induction m with
  | nil => simp [jmGet, List.find?] at h
  | cons e rest ih =>
    rw [jmGet_cons] at h
    by_cases he : e.1 == k
    · rw [if_pos he] at h
      obtain rfl : e.2 = old := by simpa using h
      simp only [jmSet, he, ite_true, cmCountP, List.map_cons, List.sum_cons]
      omega
    · rw [if_neg (by simpa using he)] at h
      simp only [jmSet, he, Bool.false_eq_true, ite_false, cmCountP, List.map_cons,
        List.sum_cons]
      have := ih h
      simp only [cmCountP] at this
      omega

theorem cmMem_push_self_ne {β : Type} (cm : JsMap (List β)) (k : String) (x : β)
    {q : String} (hk : k ≠ q) :
    ∃ e ∈ jmSet cm k (((jmGet cm k).getD []) ++ [x]), x ∈ e.2 ∧ e.1 ≠ q :=
  ⟨(k, ((jmGet cm k).getD []) ++ [x]), jmGet_mem (jmGet_jmSet_self _ _ _),
    List.mem_append_right _ (List.mem_cons_self _ _), hk⟩

theorem cmMem_push_ne {β : Type} {cm : JsMap (List β)} {c : β} {q : String} (k : String)
    (x : β) (hk : k ≠ q) (h : ∃ e ∈ cm, c ∈ e.2 ∧ e.1 ≠ q) :
    ∃ e ∈ jmSet cm k (((jmGet cm k).getD []) ++ [x]), c ∈ e.2 ∧ e.1 ≠ q := by
  obtain ⟨e, he, hc, hq⟩ := h
  induction cm with
  | nil => simp at he
  | cons p rest ih =>
    rw [jmGet_cons]
    by_cases hp : p.1 == k
    · rw [if_pos hp]
      simp only [Option.getD_some]
      simp only [jmSet, hp, ite_true]
      rcases List.mem_cons.mp he with rfl | he2
      · exact ⟨(k, e.2 ++ [x]), List.mem_cons_self _ _, List.mem_append_left _ hc, hk⟩
      · exact ⟨e, List.mem_cons_of_mem _ he2, hc, hq⟩
    · rw [if_neg (by simpa using hp)]
      simp only [jmSet, hp, Bool.false_eq_true, ite_false]
      rcases List.mem_cons.mp he with rfl | he2
      · exact ⟨e, List.mem_cons_self _ _, hc, hq⟩
      · obtain ⟨e2, he3, hc2, hq2⟩ := ih he2
        exact ⟨e2, List.mem_cons_of_mem _ he3, hc2, hq2⟩

/-! ### Properties of the second collection loop -/

theorem loopTwoChild_fold_countP (headers : JsMap SettingDefinition) (parentId : String)
    (p : SettingDefinition → Bool) :
    ∀ (children : List SettingDefinition)
      (acc : JsMap (List SettingDefinition) × List SettingDefinition),
      cmCountP p (children.foldl (loopTwoChild headers parentId) acc).1
          + ((children.foldl (loopTwoChild headers parentId) acc).2).countP p
        = cmCountP p acc.1 + acc.2.countP p + children.countP p := by
  intro children
  induction children with
  | nil => simp
  | cons child rest ih =>
    intro acc
    rw [List.foldl_cons, ih, List.countP_cons]
    rcases htgt : collectionItemTarget headers child with _ | header
    · simp only [loopTwoChild, htgt, List.countP_append, List.countP_cons, List.countP_nil]
      omega
    · simp only [loopTwoChild, htgt]
      by_cases h5 : (header.id != parentId) = true
      · rw [if_pos h5]
        simp only [cmCountP_push]
        omega
      · rw [if_neg h5]
        simp only [List.countP_append, List.countP_cons, List.countP_nil]
        omega

theorem loopTwoChild_fold_get (headers : JsMap SettingDefinition) (parentId : String) :
    ∀ (children : List SettingDefinition)
      (acc : JsMap (List SettingDefinition) × List SettingDefinition),
      jmGet (children.foldl (loopTwoChild headers parentId) acc).1 parentId
        = jmGet acc.1 parentId := by
  intro children
  induction children with
  | nil => exact fun acc => rfl
  | cons child rest ih =>
    intro acc
    rw [List.foldl_cons, ih]
    rcases htgt : collectionItemTarget headers child with _ | header
    · simp [loopTwoChild, htgt]
    · simp only [loopTwoChild, htgt]
      by_cases h5 : (header.id != parentId) = true
      · rw [if_pos h5]
        exact jmGet_jmSet_ne _ _ (fun hh => by simp [hh] at h5)
      · rw [if_neg h5]

theorem loopTwoChild_fold_keys (headers : JsMap SettingDefinition) (parentId : String) :
    ∀ (children : List SettingDefinition)
      (acc : JsMap (List SettingDefinition) × List SettingDefinition),
      ((acc.1).map (·.1)).Nodup →
      (((children.foldl (loopTwoChild headers parentId) acc).1).map (·.1)).Nodup := by
  intro children
  induction children with
  | nil => exact fun acc h => h
  | cons child rest ih =>
    intro acc h
    rw [List.foldl_cons]
    apply ih
    rcases htgt : collectionItemTarget headers child with _ | header
    · simpa [loopTwoChild, htgt] using h
    · simp only [loopTwoChild, htgt]
      by_cases h5 : (header.id != parentId) = true
      · rw [if_pos h5]
        exact jmSet_keys_nodup h _ _
      · rw [if_neg h5]
        exact h

theorem loopTwoChild_fold_len_le (headers : JsMap SettingDefinition) (parentId : String) :
    ∀ (children : List SettingDefinition)
      (acc : JsMap (List SettingDefinition) × List SettingDefinition),
      (children.foldl (loopTwoChild headers parentId) acc).2.length
        ≤ acc.2.length + children.length := by
  intro children
  induction children with
  | nil => simp
  | cons child rest ih =>
    intro acc
    rw [List.foldl_cons]
    rcases htgt : collectionItemTarget headers child with _ | header
    · simp only [loopTwoChild, htgt]
      have := ih (acc.1, acc.2 ++ [child])
      dsimp only at this
      simp only [List.length_append, List.length_cons, List.length_nil] at this ⊢
      omega
    · simp only [loopTwoChild, htgt]
      by_cases h5 : (header.id != parentId) = true
      · rw [if_pos h5]
        have := ih (jmSet acc.1 header.id (((jmGet acc.1 header.id).getD []) ++ [child]), acc.2)
        dsimp only at this
        simp only [List.length_cons] at this ⊢
        omega
      · rw [if_neg h5]
        have := ih (acc.1, acc.2 ++ [child])
        dsimp only at this
        simp only [List.length_append, List.length_cons, List.length_nil] at this ⊢
        omega

theorem loopTwoChild_fold_all_stay (headers : JsMap SettingDefinition) (parentId : String) :
    ∀ (children : List SettingDefinition)
      (acc : JsMap (List SettingDefinition) × List SettingDefinition),
      (children.foldl (loopTwoChild headers parentId) acc).2.length
          = acc.2.length + children.length →
      (children.foldl (loopTwoChild headers parentId) acc).1 = acc.1 ∧
        (children.foldl (loopTwoChild headers parentId) acc).2 = acc.2 ++ children := by
  intro children
  induction children with
  | nil => exact fun acc _ => ⟨rfl, by simp⟩
  | cons child rest ih =>
    intro acc hlen
    rw [List.foldl_cons] at hlen ⊢
    rcases htgt : collectionItemTarget headers child with _ | header
    · simp only [loopTwoChild, htgt] at hlen ⊢
      have := ih (acc.1, acc.2 ++ [child]) (by
        dsimp only
        simp only [List.length_append, List.length_cons, List.length_nil] at hlen ⊢
        omega)
      exact ⟨this.1, by simpa [List.append_assoc] using this.2⟩
    · simp only [loopTwoChild, htgt] at hlen ⊢
      by_cases h5 : (header.id != parentId) = true
      · rw [if_pos h5] at hlen ⊢
        exfalso
        have := loopTwoChild_fold_len_le headers parentId rest
          (jmSet acc.1 header.id (((jmGet acc.1 header.id).getD []) ++ [child]), acc.2)
        dsimp only at this
        simp only [List.length_cons] at hlen
        omega
      · rw [if_neg h5] at hlen ⊢
        have := ih (acc.1, acc.2 ++ [child]) (by
          dsimp only
          simp only [List.length_append, List.length_cons, List.length_nil] at hlen ⊢
          omega)
        exact ⟨this.1, by simpa [List.append_assoc] using this.2⟩

theorem loopTwoChild_fold_mem (headers : JsMap SettingDefinition) (parentId : String)
    {c : SettingDefinition} :
    ∀ (children : List SettingDefinition)
      (acc : JsMap (List SettingDefinition) × List SettingDefinition),
      (c ∈ children ∨ c ∈ acc.2 ∨ (∃ e ∈ acc.1, c ∈ e.2 ∧ e.1 ≠ parentId)) →
      ((∃ e ∈ (children.foldl (loopTwoChild headers parentId) acc).1,
          c ∈ e.2 ∧ e.1 ≠ parentId) ∨
        c ∈ (children.foldl (loopTwoChild headers parentId) acc).2) := by
  intro children
  induction children with
  | nil =>
    intro acc h
    rcases h with h | h | h
    · simp at h
    · exact Or.inr h
    · exact Or.inl h
  | cons child rest ih =>
    intro acc h
    rw [List.foldl_cons]
    rcases htgt : collectionItemTarget headers child with _ | header
    · simp only [loopTwoChild, htgt]
      apply ih
      rcases h with h | h | h
      · rcases List.mem_cons.mp h with rfl | h
        · exact Or.inr (Or.inl (List.mem_append_right _ (List.mem_cons_self _ _)))
        · exact Or.inl h
      · exact Or.inr (Or.inl (List.mem_append_left _ h))
      · exact Or.inr (Or.inr h)
    · simp only [loopTwoChild, htgt]
      by_cases h5 : (header.id != parentId) = true
      · rw [if_pos h5]
        have hne : header.id ≠ parentId := by simpa using h5
        apply ih
        rcases h with h | h | h
        · rcases List.mem_cons.mp h with rfl | h
          · exact Or.inr (Or.inr (cmMem_push_self_ne acc.1 header.id c hne))
          · exact Or.inl h
        · exact Or.inr (Or.inl h)
        · exact Or.inr (Or.inr (cmMem_push_ne _ _ hne h))
      · rw [if_neg h5]
        apply ih
        rcases h with h | h | h
        · rcases List.mem_cons.mp h with rfl | h
          · exact Or.inr (Or.inl (List.mem_append_right _ (List.mem_cons_self _ _)))
          · exact Or.inl h
        · exact Or.inr (Or.inl (List.mem_append_left _ h))
        · exact Or.inr (Or.inr h)

theorem nodup_entry_eq {α : Type} {m : JsMap α} (h : (m.map (·.1)).Nodup)
    {e1 e2 : String × α} (h1 : e1 ∈ m) (h2 : e2 ∈ m) (hk : e1.1 = e2.1) : e1 = e2 :=
  List.inj_on_of_nodup_map h h1 h2 hk

theorem loopTwo_step_cm2_keys (headers : JsMap SettingDefinition) (parentId : String)
    (children : List SettingDefinition) (cm : JsMap (List SettingDefinition))
    (h : (cm.map (·.1)).Nodup) :
    ((if ((children.foldl (loopTwoChild headers parentId) (cm, [])).2.length
          != children.length) = true then
        jmSet (children.foldl (loopTwoChild headers parentId) (cm, [])).1 parentId
          (children.foldl (loopTwoChild headers parentId) (cm, [])).2
      else (children.foldl (loopTwoChild headers parentId) (cm, [])).1).map (·.1)).Nodup := by
  split
  · exact jmSet_keys_nodup (loopTwoChild_fold_keys headers parentId children (cm, []) h) _ _
  · exact loopTwoChild_fold_keys headers parentId children (cm, []) h

theorem loopTwo_countP (headers : JsMap SettingDefinition) (p : SettingDefinition → Bool) :
    ∀ (fuel i : Nat) (cm : JsMap (List SettingDefinition)), (cm.map (·.1)).Nodup →
      cmCountP p (loopTwo headers fuel i cm) = cmCountP p cm := by
  intro fuel
  induction fuel with
  | zero => exact fun i cm _ => rfl
  | succ fuel ih =>
    intro i cm hnd
    rcases hget : cm[i]? with _ | ⟨parentId, children⟩
    · simp only [loopTwo, hget]
    · simp only [loopTwo, hget]
      by_cases hh : (jmGet headers parentId).isSome = true
      · rw [if_pos hh]
        exact ih _ _ hnd
      · rw [if_neg hh]
        have hmem : (parentId, children) ∈ cm := List.getElem?_mem hget
        have hget1 : jmGet cm parentId = some children := jmGet_of_mem_nodup hnd hmem
        by_cases hlen :
            ((children.foldl (loopTwoChild headers parentId) (cm, [])).2.length
              != children.length) = true
        · rw [if_pos hlen]
          have hkeys := loopTwoChild_fold_keys headers parentId children (cm, []) hnd
          have hcount := loopTwoChild_fold_countP headers parentId p children (cm, [])
          have hg : jmGet (children.foldl (loopTwoChild headers parentId) (cm, [])).1 parentId
              = some children := by
            rw [loopTwoChild_fold_get]
            exact hget1
          have hset := cmCountP_jmSet p hg
            (children.foldl (loopTwoChild headers parentId) (cm, [])).2
          rw [ih _ _ (jmSet_keys_nodup hkeys _ _)]
          dsimp only at hcount
          simp only [List.countP_nil] at hcount
          omega
        · rw [if_neg hlen]
          have hstay := loopTwoChild_fold_all_stay headers parentId children (cm, []) (by
            simp only [bne_iff_ne, ne_eq, Decidable.not_not] at hlen
            dsimp only
            simp only [List.length_nil]
            omega)
          rw [hstay.1] at *
          exact ih _ _ hnd

theorem loopTwo_mem (headers : JsMap SettingDefinition) {c : SettingDefinition} :
    ∀ (fuel i : Nat) (cm : JsMap (List SettingDefinition)), (cm.map (·.1)).Nodup →
      (∃ e ∈ cm, c ∈ e.2) → ∃ e ∈ loopTwo headers fuel i cm, c ∈ e.2 := by
  intro fuel
  induction fuel with
  | zero => exact fun i cm _ h => h
  | succ fuel ih =>
    intro i cm hnd h
    rcases hget : cm[i]? with _ | ⟨parentId, children⟩
    · simpa only [loopTwo, hget] using h
    · simp only [loopTwo, hget]
      by_cases hh : (jmGet headers parentId).isSome = true
      · rw [if_pos hh]
        exact ih _ _ hnd h
      · rw [if_neg hh]
        have hmem : (parentId, children) ∈ cm := List.getElem?_mem hget
        by_cases hlen :
            ((children.foldl (loopTwoChild headers parentId) (cm, [])).2.length
              != children.length) = true
        · rw [if_pos hlen]
          apply ih _ _ (jmSet_keys_nodup
            (loopTwoChild_fold_keys headers parentId children (cm, []) hnd) _ _)
          obtain ⟨e0, he0, hc0⟩ := h
          by_cases hkey : e0.1 = parentId
          · have : e0 = (parentId, children) :=
              nodup_entry_eq hnd he0 hmem hkey
            subst this
            have hfold := loopTwoChild_fold_mem headers parentId children (cm, [])
              (Or.inl hc0)
            rcases hfold with ⟨e1, he1, hc1, hk1⟩ | hrem
            · exact ⟨e1, jmSet_mem_ne he1 hk1 _, hc1⟩
            · refine ⟨(parentId, (children.foldl (loopTwoChild headers parentId) (cm, [])).2),
                jmGet_mem (jmGet_jmSet_self _ _ _), hrem⟩
          · have hfold := loopTwoChild_fold_mem headers parentId children (cm, [])
              (Or.inr (Or.inr ⟨e0, he0, hc0, hkey⟩))
            rcases hfold with ⟨e1, he1, hc1, hk1⟩ | hrem
            · exact ⟨e1, jmSet_mem_ne he1 hk1 _, hc1⟩
            · refine ⟨(parentId, (children.foldl (loopTwoChild headers parentId) (cm, [])).2),
                jmGet_mem (jmGet_jmSet_self _ _ _), hrem⟩
        · rw [if_neg hlen]
          have hstay := loopTwoChild_fold_all_stay headers parentId children (cm, []) (by
            simp only [bne_iff_ne, ne_eq, Decidable.not_not] at hlen
            dsimp only
            simp only [List.length_nil]
            omega)
          rw [hstay.1]
          exact ih _ _ hnd h

/-! ### Pass-level characterizations -/

theorem contains_eq_false_of_forall_ne {l : List String} {a : String}
    (h : ∀ x ∈ l, x ≠ a) : l.contains a = false := by
  cases hc : l.contains a with
  | false => rfl
  | true => exact absurd rfl (h a (by simpa using hc))

theorem truthy_eq_some (o : Option String) (h : truthy o = true) : o = some (getStr o) := by
  cases o with
  | none => simp [truthy] at h
  | some v => rfl

theorem nonRoot_cond (s : SettingDefinition) :
    (truthy s.rootDefinitionId && s.rootDefinitionId != some s.id) = !(isRootSetting s) := by
  simp only [isRootSetting, Bool.not_or, Bool.not_not, bne]

theorem passOne_foldl (l : List SettingDefinition) :
    ∀ st : GroupState, l.foldl passOneStep st =
      { rootSettings := st.rootSettings
          ++ l.filter (fun s => isRootSetting s && !isSyntheticGroupContainer s)
        rootIds := st.rootIds
          ++ (l.filter (fun s => isRootSetting s && !isSyntheticGroupContainer s)).map (·.id)
        childMap := st.childMap
        syntheticGroupIds := st.syntheticGroupIds
          ++ (l.filter (fun s => isRootSetting s && isSyntheticGroupContainer s)).map (·.id) } := by
  induction l with
  | nil => intro st; simp
  | cons s rest ih =>
    intro st
    rw [List.foldl_cons, ih]
    unfold passOneStep
    by_cases h1 : isRootSetting s = true
    · by_cases h2 : isSyntheticGroupContainer s = true
      · simp [h1, h2, List.filter_cons]
      · simp [h1, h2, List.filter_cons]
    · simp [h1, List.filter_cons]

theorem passOne_spec (settings : List SettingDefinition) :
    passOne settings =
      { rootSettings := settings.filter (fun s => isRootSetting s && !isSyntheticGroupContainer s)
        rootIds := (settings.filter
          (fun s => isRootSetting s && !isSyntheticGroupContainer s)).map (·.id)
        childMap := []
        syntheticGroupIds := (settings.filter
          (fun s => isRootSetting s && isSyntheticGroupContainer s)).map (·.id) } := by
  unfold passOne
  rw [passOne_foldl]
  simp

theorem passTwoStep_synth (settings : List SettingDefinition) (st : GroupState)
    (s : SettingDefinition) :
    (passTwoStep settings st s).syntheticGroupIds = st.syntheticGroupIds := by
  unfold passTwoStep childAttach
  split_ifs <;> rfl

theorem passTwo_foldl_synth (settings : List SettingDefinition) :
    ∀ (l : List SettingDefinition) (st : GroupState),
      (l.foldl (passTwoStep settings) st).syntheticGroupIds = st.syntheticGroupIds := by
  intro l
  induction l with
  | nil => exact fun st => rfl
  | cons s rest ih =>
    intro st
    rw [List.foldl_cons, ih, passTwoStep_synth]

theorem passTwoStep_rootIds (settings : List SettingDefinition) (st : GroupState)
    (s : SettingDefinition) :
    (passTwoStep settings st s).rootIds = st.rootIds ∨
      (passTwoStep settings st s).rootIds = st.rootIds ++ [s.id] := by
  unfold passTwoStep childAttach
  split_ifs <;> simp

theorem passTwoStep_roots (settings : List SettingDefinition) (st : GroupState)
    (s : SettingDefinition) :
    (passTwoStep settings st s).rootSettings = st.rootSettings ∨
      (passTwoStep settings st s).rootSettings = st.rootSettings ++ [s] := by
  unfold passTwoStep childAttach
  split_ifs <;> simp

theorem passTwo_foldl_rootIds_forall (settings : List SettingDefinition)
    (P : String → Prop) :
    ∀ (l : List SettingDefinition) (st : GroupState),
      (∀ k ∈ st.rootIds, P k) → (∀ x ∈ l, P x.id) →
      ∀ k ∈ (l.foldl (passTwoStep settings) st).rootIds, P k := by
  intro l
  induction l with
  | nil => exact fun st h _ => h
  | cons s rest ih =>
    intro st hst hl
    rw [List.foldl_cons]
    refine ih _ ?_ (fun x hx => hl x (List.mem_cons_of_mem _ hx))
    rcases passTwoStep_rootIds settings st s with h | h <;> rw [h]
    · exact hst
    · intro k hk
      rcases List.mem_append.mp hk with hk | hk
      · exact hst k hk
      · rcases List.mem_singleton.mp hk with rfl
        exact hl s (List.mem_cons_self _ _)

theorem passTwo_foldl_roots_forall (settings : List SettingDefinition)
    (P : SettingDefinition → Prop) :
    ∀ (l : List SettingDefinition) (st : GroupState),
      (∀ x ∈ st.rootSettings, P x) → (∀ x ∈ l, P x) →
      ∀ x ∈ (l.foldl (passTwoStep settings) st).rootSettings, P x := by
  intro l
  induction l with
  | nil => exact fun st h _ => h
  | cons s rest ih =>
    intro st hst hl
    rw [List.foldl_cons]
    refine ih _ ?_ (fun x hx => hl x (List.mem_cons_of_mem _ hx))
    rcases passTwoStep_roots settings st s with h | h <;> rw [h]
    · exact hst
    · intro x hx
      rcases List.mem_append.mp hx with hx | hx
      · exact hst x hx
      · rcases List.mem_singleton.mp hx with rfl
        exact hl x (List.mem_cons_self _ _)

theorem passTwo_foldl_roots_mono (settings : List SettingDefinition)
    {x : SettingDefinition} :
    ∀ (l : List SettingDefinition) (st : GroupState),
      x ∈ st.rootSettings → x ∈ (l.foldl (passTwoStep settings) st).rootSettings := by
  intro l
  induction l with
  | nil => exact fun st h => h
  | cons s rest ih =>
    intro st hst
    rw [List.foldl_cons]
    refine ih _ ?_
    rcases passTwoStep_roots settings st s with h | h <;> rw [h]
    · exact hst
    · exact List.mem_append_left _ hst

theorem passTwoStep_promote (settings : List SettingDefinition) (st : GroupState)
    (s : SettingDefinition) (h1 : truthy s.rootDefinitionId = true)
    (h2 : s.rootDefinitionId ≠ some s.id)
    (hsyn : st.syntheticGroupIds.contains (getStr s.rootDefinitionId) = false)
    (hroot : st.rootIds.contains (getStr s.rootDefinitionId) = false) :
    s ∈ (passTwoStep settings st s).rootSettings := by
  unfold passTwoStep
  rw [if_pos (by
    simp only [Bool.and_eq_true, h1, true_and, bne_iff_ne, ne_eq]
    exact h2)]
  rw [if_neg (by rw [hsyn]; exact Bool.false_ne_true)]
  rw [if_neg (by rw [hroot]; exact Bool.false_ne_true)]
  exact List.mem_append_right _ (List.mem_cons_self _ _)

theorem passTwo_promotes (settings : List SettingDefinition) {s : SettingDefinition}
    (hs : s ∈ settings) (h1 : truthy s.rootDefinitionId = true)
    (h2 : s.rootDefinitionId ≠ some s.id)
    (habsent : ∀ t ∈ settings, some t.id ≠ s.rootDefinitionId) :
    s ∈ (passTwo settings).rootSettings := by
  have hids : ∀ t ∈ settings, t.id ≠ getStr s.rootDefinitionId := by
    intro t ht heq
    exact habsent t ht (by rw [heq]; exact (truthy_eq_some _ h1).symm)
  obtain ⟨l1, l2, rfl⟩ := List.append_of_mem hs
  unfold passTwo
  rw [List.foldl_append, List.foldl_cons]
  apply passTwo_foldl_roots_mono
  have hsyn : (l1.foldl (passTwoStep (l1 ++ s :: l2))
      (passOne (l1 ++ s :: l2))).syntheticGroupIds.contains (getStr s.rootDefinitionId)
      = false := by
    rw [passTwo_foldl_synth, passOne_spec]
    apply contains_eq_false_of_forall_ne
    intro x hx
    simp only [List.mem_map] at hx
    obtain ⟨t, ht, rfl⟩ := hx
    exact hids t (List.mem_filter.mp ht).1
  have hroot : (l1.foldl (passTwoStep (l1 ++ s :: l2))
      (passOne (l1 ++ s :: l2))).rootIds.contains (getStr s.rootDefinitionId) = false := by
    apply contains_eq_false_of_forall_ne
    apply passTwo_foldl_rootIds_forall (l1 ++ s :: l2)
      (fun k => k ≠ getStr s.rootDefinitionId)
    · rw [passOne_spec]
      intro k hk
      simp only [List.mem_map] at hk
      obtain ⟨t, ht, rfl⟩ := hk
      exact hids t (List.mem_filter.mp ht).1
    · intro x hx
      exact hids x (List.mem_append_left _ hx)
  exact passTwoStep_promote _ _ _ h1 h2 hsyn hroot

/-! ### Multiplicity accounting (claim C10) -/

theorem passTwoStep_count (settings : List SettingDefinition) (st : GroupState)
    (s : SettingDefinition) (p : SettingDefinition → Bool) :
    (passTwoStep settings st s).rootSettings.countP p
        + cmCountP p (passTwoStep settings st s).childMap
      ≤ st.rootSettings.countP p + cmCountP p st.childMap
        + (if p s && !(isRootSetting s) then 1 else 0) := by
  unfold passTwoStep childAttach
  by_cases h1 : (truthy s.rootDefinitionId && s.rootDefinitionId != some s.id) = true
  · have h1' : (!(isRootSetting s)) = true := by rw [← nonRoot_cond]; exact h1
    rw [if_pos h1]
    simp only [h1', Bool.and_true]
    by_cases hp : p s = true <;>
      split_ifs <;>
      first
        | omega
        | (dsimp only
           simp only [List.countP_append, List.countP_cons, List.countP_nil, cmCountP_push, hp,
             Bool.false_eq_true, Bool.true_eq_false, if_true, if_false, ite_true, ite_false]
           omega)
  · have h1' : (truthy s.rootDefinitionId && s.rootDefinitionId != some s.id) = false := by
      revert h1
      cases truthy s.rootDefinitionId && s.rootDefinitionId != some s.id <;> simp
    rw [if_neg h1]
    omega

theorem passTwo_foldl_count (settings : List SettingDefinition) (p : SettingDefinition → Bool) :
    ∀ (l : List SettingDefinition) (st : GroupState),
      (l.foldl (passTwoStep settings) st).rootSettings.countP p
          + cmCountP p (l.foldl (passTwoStep settings) st).childMap
        ≤ st.rootSettings.countP p + cmCountP p st.childMap
          + l.countP (fun s => p s && !(isRootSetting s)) := by
  intro l
  induction l with
  | nil => simp
  | cons s rest ih =>
    intro st
    rw [List.foldl_cons, List.countP_cons]
    have hstep := passTwoStep_count settings st s p
    have hrest := ih (passTwoStep settings st s)
    by_cases hps : (p s && !(isRootSetting s)) = true <;> simp only [hps] at hstep ⊢ <;> omega

theorem countP_two_disjoint {α : Type} (l : List α) (p q r : α → Bool)
    (hp : ∀ x, p x = true → r x = true) (hq : ∀ x, q x = true → r x = true)
    (hpq : ∀ x, ¬(p x = true ∧ q x = true)) :
    l.countP p + l.countP q ≤ l.countP r := by
  induction l with
  | nil => simp
  | cons x rest ih =>
    simp only [List.countP_cons]
    have hp' := hp x
    have hq' := hq x
    have hpq' := hpq x
    by_cases hx : p x = true <;> by_cases hy : q x = true <;> by_cases hz : r x = true <;>
      simp only [hx, hy, hz, Bool.false_eq_true, Bool.true_eq_false, if_true, if_false,
        ite_true, ite_false, eq_self_iff_true] <;>
      first
        | omega
        | (exfalso; tauto)

theorem countP_id_le_one {settings : List SettingDefinition}
    (h : settings.Pairwise (fun a b => a.id ≠ b.id)) (id : String) :
    settings.countP (fun s => s.id == id) ≤ 1 := by
  induction settings with
  | nil => simp
  | cons s rest ih =>
    rcases h with _ | ⟨hhd, htl⟩
    rw [List.countP_cons]
    by_cases hs : (s.id == id) = true
    · have hzero : rest.countP (fun s => s.id == id) = 0 := by
        rw [List.countP_eq_zero]
        intro t ht htid
        exact hhd t ht (by
          rw [(beq_iff_eq).mp htid, (beq_iff_eq).mp hs])
      simp [hs, hzero]
    · simp only [hs, if_false, ite_false]
      simpa using ih htl

theorem distinct_id_inj {settings : List SettingDefinition}
    (h : settings.Pairwise (fun a b => a.id ≠ b.id)) :
    ∀ {a b : SettingDefinition}, a ∈ settings → b ∈ settings → a.id = b.id → a = b := by
  intro a b ha hb hid
  by_cases hab : a = b
  · exact hab
  · exact absurd hid (List.Pairwise.forall (fun x y hxy => Ne.symm hxy) h ha hb hab)

theorem passTwoStep_childMap_keys (settings : List SettingDefinition) (st : GroupState)
    (s : SettingDefinition) (h : (st.childMap.map (·.1)).Nodup) :
    ((passTwoStep settings st s).childMap.map (·.1)).Nodup := by
  unfold passTwoStep childAttach
  split_ifs <;> first | exact h | exact jmSet_keys_nodup h _ _

theorem passTwo_childMap_keys (settings : List SettingDefinition) :
    (((passTwo settings).childMap).map (·.1)).Nodup := by
  unfold passTwo
  suffices h : ∀ (l : List SettingDefinition) (st : GroupState),
      (st.childMap.map (·.1)).Nodup →
      ((l.foldl (passTwoStep settings) st).childMap.map (·.1)).Nodup by
    refine h settings (passOne settings) ?_
    rw [passOne_childMap]
    simp
  intro l
  induction l with
  | nil => exact fun st h => h
  | cons s rest ih =>
    intro st h
    rw [List.foldl_cons]
    exact ih _ (passTwoStep_childMap_keys settings st s h)

/-! ### First collection loop characterization -/

theorem loopOne_foldl_countP (headers : JsMap SettingDefinition) (p : SettingDefinition → Bool) :
    ∀ (roots : List SettingDefinition) (acc : JsMap (List SettingDefinition) × List String),
      cmCountP p (roots.foldl (loopOneStep headers) acc).1
        = cmCountP p acc.1
          + (roots.filter (fun s => (collectionItemTarget headers s).isSome)).countP p := by
  intro roots
  induction roots with
  | nil => simp
  | cons s rest ih =>
    intro acc
    rw [List.foldl_cons, ih]
    rcases htgt : collectionItemTarget headers s with _ | header
    · simp [loopOneStep, htgt, List.filter_cons]
    · simp only [loopOneStep, htgt, List.filter_cons, Option.isSome_some, ite_true,
        List.countP_cons, cmCountP_push]
      by_cases hp : p s = true <;>
        simp only [hp, Bool.false_eq_true, Bool.true_eq_false, if_true, if_false, ite_true,
          ite_false] <;>
        omega

theorem loopOne_foldl_toRemove (headers : JsMap SettingDefinition) :
    ∀ (roots : List SettingDefinition) (acc : JsMap (List SettingDefinition) × List String),
      (roots.foldl (loopOneStep headers) acc).2
        = acc.2 ++ (roots.filter (fun s => (collectionItemTarget headers s).isSome)).map (·.id) := by
  intro roots
  induction roots with
  | nil => simp
  | cons s rest ih =>
    intro acc
    rw [List.foldl_cons, ih]
    rcases htgt : collectionItemTarget headers s with _ | header
    · simp [loopOneStep, htgt, List.filter_cons]
    · simp [loopOneStep, htgt, List.filter_cons]

theorem loopOne_foldl_mem (headers : JsMap SettingDefinition) {c : SettingDefinition} :
    ∀ (roots : List SettingDefinition) (acc : JsMap (List SettingDefinition) × List String),
      (∃ e ∈ acc.1, c ∈ e.2) → ∃ e ∈ (roots.foldl (loopOneStep headers) acc).1, c ∈ e.2 := by
  intro roots
  induction roots with
  | nil => exact fun acc h => h
  | cons s rest ih =>
    intro acc h
    rw [List.foldl_cons]
    apply ih
    rcases htgt : collectionItemTarget headers s with _ | header
    · simpa [loopOneStep, htgt] using h
    · simp only [loopOneStep, htgt]
      exact cmMem_push _ _ h

theorem loopOne_foldl_mem_self (headers : JsMap SettingDefinition) {c : SettingDefinition} :
    ∀ (roots : List SettingDefinition) (acc : JsMap (List SettingDefinition) × List String),
      c ∈ roots → (collectionItemTarget headers c).isSome = true →
      ∃ e ∈ (roots.foldl (loopOneStep headers) acc).1, c ∈ e.2 := by
  intro roots
  induction roots with
  | nil => intro acc h; simp at h
  | cons s rest ih =>
    intro acc hmem htgt
    rw [List.foldl_cons]
    rcases List.mem_cons.mp hmem with rfl | hmem2
    · apply loopOne_foldl_mem headers rest
      rcases hsome : collectionItemTarget headers c with _ | header
      · rw [hsome] at htgt
        simp at htgt
      · simp only [loopOneStep, hsome]
        exact cmMem_push_self _ _ _
    · exact ih _ hmem2 htgt

theorem loopOneStep_keys (headers : JsMap SettingDefinition)
    (acc : JsMap (List SettingDefinition) × List String) (s : SettingDefinition)
    (h : ((acc.1).map (·.1)).Nodup) :
    (((loopOneStep headers acc s).1).map (·.1)).Nodup := by
  rcases htgt : collectionItemTarget headers s with _ | header
  · simpa [loopOneStep, htgt] using h
  · simp only [loopOneStep, htgt]
    exact jmSet_keys_nodup h _ _

theorem loopOne_foldl_keys (headers : JsMap SettingDefinition) :
    ∀ (roots : List SettingDefinition) (acc : JsMap (List SettingDefinition) × List String),
      ((acc.1).map (·.1)).Nodup →
      (((roots.foldl (loopOneStep headers) acc).1).map (·.1)).Nodup := by
  intro roots
  induction roots with
  | nil => exact fun acc h => h
  | cons s rest ih =>
    intro acc h
    rw [List.foldl_cons]
    exact ih _ (loopOneStep_keys headers acc s h)

theorem passTwo_roots_sub (settings : List SettingDefinition) :
    ∀ x ∈ (passTwo settings).rootSettings, x ∈ settings := by
  unfold passTwo
  apply passTwo_foldl_roots_forall settings (· ∈ settings) settings (passOne settings)
  · rw [passOne_spec]
    intro x hx
    exact (List.mem_filter.mp hx).1
  · exact fun x hx => hx

theorem gMoved_keys (settings : List SettingDefinition) :
    (((gMoved settings).1).map (·.1)).Nodup := by
  unfold gMoved loopOne
  exact loopOne_foldl_keys _ _ _ (passTwo_childMap_keys settings)

theorem gMoved_toRemove (settings : List SettingDefinition) :
    (gMoved settings).2 = ((passTwo settings).rootSettings.filter
      (fun s => (collectionItemTarget (gHeaders settings) s).isSome)).map (·.id) := by
  unfold gMoved loopOne
  rw [loopOne_foldl_toRemove]
  simp

theorem gMoved_countP (settings : List SettingDefinition) (p : SettingDefinition → Bool) :
    cmCountP p (gMoved settings).1
      = cmCountP p (passTwo settings).childMap
        + ((passTwo settings).rootSettings.filter
            (fun s => (collectionItemTarget (gHeaders settings) s).isSome)).countP p := by
  unfold gMoved loopOne
  rw [loopOne_foldl_countP]

/-- Claim C10: with pairwise-distinct input ids, each setting ends up in at
most one place — counting occurrences of any id over the root list and every
child list of the result never exceeds one. -/
theorem groupSettings_setting_at_most_once (settings : List SettingDefinition)
    (hdist : settings.Pairwise (fun a b => a.id ≠ b.id)) (id : String) :
    (groupSettings settings).rootSettings.countP (fun s => s.id == id)
      + cmCountP (fun s => s.id == id) (groupSettings settings).childMap ≤ 1 := by
  set p : SettingDefinition → Bool := fun s => s.id == id with hp
  have hroots : (groupSettings settings).rootSettings.countP p
      = (groupedPair settings).1.countP p :=
    (insSort_perm _ _).countP_eq p
  have hcm : cmCountP p (groupSettings settings).childMap
      = cmCountP p (groupedPair settings).2 := by
    simp only [groupSettings, cmCountP, List.map_map]
    congr 1
    apply List.map_congr_left
    intro e _
    exact (insSort_perm settingNameLE e.2).countP_eq p
  have hpassCount : (passTwo settings).rootSettings.countP p
      + cmCountP p (passTwo settings).childMap ≤ 1 := by
    have h1 := passTwo_foldl_count settings p settings (passOne settings)
    have hroots0 : (passOne settings).rootSettings
        = settings.filter (fun s => isRootSetting s && !isSyntheticGroupContainer s) := by
      rw [passOne_spec]
    have hcm0 : (passOne settings).childMap = [] := passOne_childMap settings
    have hnil : cmCountP p ([] : JsMap (List SettingDefinition)) = 0 := rfl
    rw [hroots0, hcm0, hnil] at h1
    have hA : (settings.filter
        (fun s => isRootSetting s && !isSyntheticGroupContainer s)).countP p
        = settings.countP (fun s => p s && (isRootSetting s && !isSyntheticGroupContainer s)) :=
      List.countP_filter _ _ _
    have hdisj := countP_two_disjoint settings
      (fun s => p s && (isRootSetting s && !isSyntheticGroupContainer s))
      (fun s => p s && !(isRootSetting s)) p
      (fun x hx => by
        simp only [Bool.and_eq_true] at hx
        exact hx.1)
      (fun x hx => by
        simp only [Bool.and_eq_true] at hx
        exact hx.1)
      (fun x hx => by
        simp only [Bool.and_eq_true, Bool.not_eq_true'] at hx
        obtain ⟨⟨_, hr, _⟩, ⟨_, hnr⟩⟩ := hx
        rw [hr] at hnr
        exact Bool.noConfusion hnr)
    have hle1 := countP_id_le_one hdist id
    rw [← hp] at hle1
    unfold passTwo
    omega
  have hfinal : (groupedPair settings).1.countP p + cmCountP p (groupedPair settings).2 ≤ 1 := by
    unfold groupedPair
    by_cases hh : (gHeaders settings).length > 0
    · rw [if_pos hh]
      dsimp only
      have hloop2 : cmCountP p (loopTwo (gHeaders settings)
          ((gMoved settings).1.length + cmSize (gMoved settings).1 + 1) 0 (gMoved settings).1)
          = cmCountP p (gMoved settings).1 :=
        loopTwo_countP _ p _ _ _ (gMoved_keys settings)
      have hcm1 := gMoved_countP settings p
      set M := ((passTwo settings).rootSettings.filter
        (fun s => (collectionItemTarget (gHeaders settings) s).isSome)).countP p with hM
      have hMle : M ≤ (passTwo settings).rootSettings.countP p :=
        (List.filter_sublist _).countP_le _
      by_cases hrem : (gMoved settings).2.length > 0
      · rw [if_pos hrem]
        rcases Nat.eq_zero_or_pos M with hM0 | hMpos
        · have hfle : ((passTwo settings).rootSettings.filter
              (fun s => !(gMoved settings).2.contains s.id)).countP p
              ≤ (passTwo settings).rootSettings.countP p :=
            (List.filter_sublist _).countP_le _
          omega
        · obtain ⟨m, hmF, hpm⟩ := List.countP_pos_iff.mp hMpos
          obtain ⟨hm2, hmMoved⟩ := List.mem_filter.mp hmF
          have hzero : ((passTwo settings).rootSettings.filter
              (fun s => !(gMoved settings).2.contains s.id)).countP p = 0 := by
            rw [List.countP_filter, List.countP_eq_zero]
            intro t ht
            simp only [Bool.and_eq_true, Bool.not_eq_true']
            rintro ⟨hpt, hcont⟩
            have htid : t.id = m.id := by
              rw [(beq_iff_eq).mp hpt, ← (beq_iff_eq).mp hpm]
            have : (gMoved settings).2.contains t.id = true := by
              rw [gMoved_toRemove, htid]
              simpa using List.mem_map_of_mem (·.id) hmF
            rw [this] at hcont
            exact Bool.noConfusion hcont
          omega
      · rw [if_neg hrem]
        have hlen0 : (gMoved settings).2.length = 0 := by omega
        have hfilnil : ((passTwo settings).rootSettings.filter
            (fun s => (collectionItemTarget (gHeaders settings) s).isSome)) = [] := by
          have := gMoved_toRemove settings
          rw [List.length_eq_zero.mp hlen0] at this
          have hmapnil := this.symm
          rwa [List.map_eq_nil_iff] at hmapnil
        have hM0 : M = 0 := by
          rw [hM, hfilnil]
          rfl
        omega
    · rw [if_neg hh]
      exact hpassCount
  omega

/-- Claim C6 counterexample input: a collection header among the roots. -/
def c6Header : SettingDefinition :=
  { id := "h", displayName := some "H"
    odataType := some "#microsoft.graph.deviceManagementConfigurationSettingGroupCollectionDefinition"
    baseUri := some "B", offsetUri := some "x" }

/-- Claim C6 counterexample input: an orphan (its declared parent "missing"
is not in the working set) that is also a collection item of the header. -/
def c6Orphan : SettingDefinition :=
  { id := "c", displayName := some "C", rootDefinitionId := some "missing"
    baseUri := some "A", offsetUri := some "x/[\x7b0\x7d]/y" }

/-- Claim C6 is false as stated: this orphan's declared parent is absent from
the working set, yet the orphan does not appear in `rootSettings` — it was
promoted and then re-parented under the collection header. -/
theorem groupSettings_orphan_leaves_roots :
    (∀ t ∈ [c6Header, c6Orphan], some t.id ≠ c6Orphan.rootDefinitionId) ∧
    truthy c6Orphan.rootDefinitionId = true ∧
    c6Orphan.rootDefinitionId ≠ some c6Orphan.id ∧
    c6Orphan ∉ (groupSettings [c6Header, c6Orphan]).rootSettings := by decide

/-- Claim C6, amended: with pairwise-distinct ids, a setting whose declared
parent is absent from the working set is never lost — it appears in
`rootSettings` unless collection nesting re-parented it under a header, in
which case it appears in that header's `childMap` list. -/
theorem groupSettings_orphan_kept (settings : List SettingDefinition)
    (hdist : settings.Pairwise (fun a b => a.id ≠ b.id)) (s : SettingDefinition)
    (hs : s ∈ settings) (h1 : truthy s.rootDefinitionId = true)
    (h2 : s.rootDefinitionId ≠ some s.id)
    (habsent : ∀ t ∈ settings, some t.id ≠ s.rootDefinitionId) :
    s ∈ (groupSettings settings).rootSettings ∨
      ∃ e ∈ (groupSettings settings).childMap, s ∈ e.2 := by
  have hroots2 : s ∈ (passTwo settings).rootSettings :=
    passTwo_promotes settings hs h1 h2 habsent
  have hlift1 : s ∈ (groupedPair settings).1 → s ∈ (groupSettings settings).rootSettings :=
    fun h => (insSort_perm _ _).mem_iff.mpr h
  have hlift2 : (∃ e ∈ (groupedPair settings).2, s ∈ e.2) →
      ∃ e ∈ (groupSettings settings).childMap, s ∈ e.2 := by
    rintro ⟨e, he, hce⟩
    exact ⟨(e.1, sortSettings e.2), List.mem_map_of_mem _ he,
      (insSort_perm _ _).mem_iff.mpr hce⟩
  by_cases hh : (gHeaders settings).length > 0
  · by_cases hmoved : (collectionItemTarget (gHeaders settings) s).isSome = true
    · refine Or.inr (hlift2 ?_)
      have heq : (groupedPair settings).2 = loopTwo (gHeaders settings)
          ((gMoved settings).1.length + cmSize (gMoved settings).1 + 1) 0
          (gMoved settings).1 := by
        unfold groupedPair
        rw [if_pos hh]
      rw [heq]
      refine loopTwo_mem _ _ _ _ (gMoved_keys settings) ?_
      unfold gMoved loopOne
      exact loopOne_foldl_mem_self _ _ _ hroots2 hmoved
    · refine Or.inl (hlift1 ?_)
      have heq : (groupedPair settings).1
          = if (gMoved settings).2.length > 0 then
              (passTwo settings).rootSettings.filter
                (fun t => !(gMoved settings).2.contains t.id)
            else (passTwo settings).rootSettings := by
        unfold groupedPair
        rw [if_pos hh]
      rw [heq]
      by_cases hrem : (gMoved settings).2.length > 0
      · rw [if_pos hrem]
        refine List.mem_filter.mpr ⟨hroots2, ?_⟩
        simp only [Bool.not_eq_true']
        apply contains_eq_false_of_forall_ne
        intro x hx heqid
        rw [gMoved_toRemove] at hx
        obtain ⟨m, hmF, rfl⟩ := List.mem_map.mp hx
        obtain ⟨hm2, hmMoved⟩ := List.mem_filter.mp hmF
        have hms : m = s :=
          distinct_id_inj hdist (passTwo_roots_sub settings m hm2) hs heqid
        rw [hms] at hmMoved
        rw [hmMoved] at hmoved
        exact hmoved rfl
      · rw [if_neg hrem]
        exact hroots2
  · refine Or.inl (hlift1 ?_)
    have heq : (groupedPair settings).1 = (passTwo settings).rootSettings := by
      unfold groupedPair
      rw [if_neg hh]
    rw [heq]
    exact hroots2

/-- Witness for the amended claim C6 at the counterexample input: the orphan
ends up under the collection header's child list. -/
theorem groupSettings_orphan_kept_witness :
    ([c6Header, c6Orphan].Pairwise (fun a b => a.id ≠ b.id) ∧
      c6Orphan ∈ [c6Header, c6Orphan] ∧
      truthy c6Orphan.rootDefinitionId = true ∧
      c6Orphan.rootDefinitionId ≠ some c6Orphan.id ∧
      (∀ t ∈ [c6Header, c6Orphan], some t.id ≠ c6Orphan.rootDefinitionId)) ∧
    (c6Orphan ∈ (groupSettings [c6Header, c6Orphan]).rootSettings ∨
      ∃ e ∈ (groupSettings [c6Header, c6Orphan]).childMap, c6Orphan ∈ e.2) :=
  ⟨by decide,
    groupSettings_orphan_kept [c6Header, c6Orphan] (by decide) c6Orphan (by decide) (by decide)
      (by decide) (by decide)⟩

/-- Witness for claim C10 at a concrete input exercising collection
re-parenting: the child id "c" is counted exactly once overall. -/
theorem groupSettings_setting_at_most_once_witness :
    ([c2Header, c2Child].Pairwise (fun a b => a.id ≠ b.id)) ∧
    ((groupSettings [c2Header, c2Child]).rootSettings.countP (fun s => s.id == "c")
      + cmCountP (fun s => s.id == "c") (groupSettings [c2Header, c2Child]).childMap ≤ 1) :=
  ⟨by decide, groupSettings_setting_at_most_once [c2Header, c2Child] (by decide) "c"⟩

/-! ## The changelog differ (`scripts/generate-changelog.ts`, category-aware
variant) and the search-index projection (`scripts/build-search-index.ts`). -/

/-- A raw Graph setting category, with the fields the scripts read. -/
structure SettingCategory where
  id : String
  name : Option String := none
  displayName : String := ""
  description : Option String := none
  platforms : Option String := none
  technologies : Option String := none
  settingUsage : Option String := none
  parentCategoryId : String := ""
deriving DecidableEq

/-- `hashSetting` md5-hashes `JSON.stringify` of exactly these nine fields, so
two settings hash alike iff the fields agree (md5 collisions not modelled and
`JSON.stringify` is injective on this record). -/
structure SettingHash where
  displayName : Option String
  description : Option String
  helpText : Option String
  categoryId : String
  baseUri : Option String
  offsetUri : Option String
  options : Option (List String)
  valueDefinition : Option String
  applicability : Option Applicability
deriving DecidableEq

/-- `hashSetting` (scripts/generate-changelog.ts). -/
def hashSetting (s : SettingDefinition) : SettingHash :=
  { displayName := s.displayName
    description := s.description
    helpText := s.helpText
    categoryId := s.categoryId
    baseUri := s.baseUri
    offsetUri := s.offsetUri
    options := s.options
    valueDefinition := s.valueDefinition
    applicability := s.applicability }

/-- `hashCategory` hashes exactly these six category fields. -/
structure CategoryHash where
  displayName : String
  description : Option String
  platforms : Option String
  technologies : Option String
  parentCategoryId : String
  settingUsage : Option String
deriving DecidableEq

/-- `hashCategory` (scripts/generate-changelog.ts). -/
def hashCategory (c : SettingCategory) : CategoryHash :=
  { displayName := c.displayName
    description := c.description
    platforms := c.platforms
    technologies := c.technologies
    parentCategoryId := c.parentCategoryId
    settingUsage := c.settingUsage }

/-- One entry of a field-level diff. -/
structure FieldDiff where
  field : String
  oldValue : String
  newValue : String
deriving DecidableEq

/-- `JSON.stringify` of a string value; the encoding is injective, and only
equality of encoded values is ever observed, so escaping is not modelled. -/
def jsonStr (s : String) : String := "\"" ++ s ++ "\""

/-- `JSON.stringify(applicability ?? '')` as rendered into a diff value. -/
def jsonOfApplicability : Option Applicability → String
  | none => jsonStr ""
  | some a => "\x7b\"platform\":" ++ jsonStr (getStr a.platform)
      ++ ",\"technologies\":" ++ jsonStr (getStr a.technologies) ++ "\x7d"

/-- One scalar-field comparison in `diffFields` / `diffCategoryFields`:
`JSON.stringify(old[f] ?? '') !== JSON.stringify(new[f] ?? '')` compared on
the underlying strings (the encoding is injective). -/
def strFieldDiff (name a b : String) : List FieldDiff :=
  if a ≠ b then [⟨name, jsonStr a, jsonStr b⟩] else []

/-- `diffFields` (scripts/generate-changelog.ts): six scalar fields, then the
structural `options` summary, then the `applicability` comparison. -/
def diffFields (oldS newS : SettingDefinition) : List FieldDiff :=
  strFieldDiff "displayName" (getStr oldS.displayName) (getStr newS.displayName)
  ++ strFieldDiff "description" (getStr oldS.description) (getStr newS.description)
  ++ strFieldDiff "helpText" (getStr oldS.helpText) (getStr newS.helpText)
  ++ strFieldDiff "categoryId" oldS.categoryId newS.categoryId
  ++ strFieldDiff "baseUri" (getStr oldS.baseUri) (getStr newS.baseUri)
  ++ strFieldDiff "offsetUri" (getStr oldS.offsetUri) (getStr newS.offsetUri)
  ++ (if oldS.options ≠ newS.options then
        [⟨"options", toString (oldS.options.getD []).length ++ " options",
          toString (newS.options.getD []).length ++ " options"⟩]
      else [])
  ++ (if oldS.applicability ≠ newS.applicability then
        [⟨"applicability", jsonOfApplicability oldS.applicability,
          jsonOfApplicability newS.applicability⟩]
      else [])

/-- `diffCategoryFields` (scripts/generate-changelog.ts). -/
def diffCategoryFields (oldC newC : SettingCategory) : List FieldDiff :=
  strFieldDiff "displayName" oldC.displayName newC.displayName
  ++ strFieldDiff "description" (getStr oldC.description) (getStr newC.description)
  ++ strFieldDiff "platforms" (getStr oldC.platforms) (getStr newC.platforms)
  ++ strFieldDiff "technologies" (getStr oldC.technologies) (getStr newC.technologies)
  ++ strFieldDiff "parentCategoryId" oldC.parentCategoryId newC.parentCategoryId
  ++ strFieldDiff "settingUsage" (getStr oldC.settingUsage) (getStr newC.settingUsage)

/-- A changelog setting reference as pushed by the added/removed loops. -/
structure ChangelogSettingRef where
  id : String
  displayName : Option String
  categoryId : String
  categoryName : Option String
  platform : Option String
deriving DecidableEq

/-- A changelog change record. -/
structure ChangelogChange where
  id : String
  displayName : Option String
  categoryId : String
  categoryName : Option String
  platform : Option String
  fields : List FieldDiff
deriving DecidableEq

/-- A changelog category reference. -/
structure ChangelogCategoryRef where
  id : String
  displayName : String
  parentCategoryId : String
deriving DecidableEq

/-- A changelog category change record. -/
structure ChangelogCategoryChange where
  id : String
  displayName : String
  fields : List FieldDiff
deriving DecidableEq

/-- One dated changelog entry (the category buckets are only spread into the
JSON object when non-empty; an absent key and an empty list are identified). -/
structure ChangelogEntry where
  date : String
  added : List ChangelogSettingRef
  removed : List ChangelogSettingRef
  changed : List ChangelogChange
  categoriesAdded : List ChangelogCategoryRef := []
  categoriesRemoved : List ChangelogCategoryRef := []
  categoriesChanged : List ChangelogCategoryChange := []
deriving DecidableEq

/-- `prevMap` / `currMap`: `for (const s of list) map.set(s.id, s)`. -/
def settingsById (l : List SettingDefinition) : JsMap SettingDefinition :=
  l.foldl (fun m s => jmSet m s.id s) []

/-- `prevHashMap` / `currHashMap`. -/
def settingHashesById (l : List SettingDefinition) : JsMap SettingHash :=
  l.foldl (fun m s => jmSet m s.id (hashSetting s)) []

/-- `prevCatMap` / `currCatMap`. -/
def categoriesById (l : List SettingCategory) : JsMap SettingCategory :=
  l.foldl (fun m c => jmSet m c.id c) []

/-- `prevCatHashMap` / `currCatHashMap`. -/
def categoryHashesById (l : List SettingCategory) : JsMap CategoryHash :=
  l.foldl (fun m c => jmSet m c.id (hashCategory c)) []

/-- The category-id-to-display-name map (`categoryNameMap` in
build-search-index, `categoryMap` in generate-changelog). -/
def categoryNameMap (cats : List SettingCategory) : JsMap String :=
  cats.foldl (fun m c => jmSet m c.id c.displayName) []

/-- The `ChangelogSettingRef` literal pushed by the added/removed loops. -/
def mkSettingRef (catMap : JsMap String) (s : SettingDefinition) : ChangelogSettingRef :=
  { id := s.id
    displayName := s.displayName
    categoryId := s.categoryId
    categoryName := jmGet catMap s.categoryId
    platform := s.applicability.bind Applicability.platform }

/-- The added-settings loop: current ids with no previous entry. -/
def diffAdded (catMap : JsMap String) (previous current : List SettingDefinition) :
    List ChangelogSettingRef :=
  (current.filter (fun s => !(jmGet (settingsById previous) s.id).isSome)).map
    (mkSettingRef catMap)

/-- The removed-settings loop: previous ids with no current entry. -/
def diffRemoved (catMap : JsMap String) (previous current : List SettingDefinition) :
    List ChangelogSettingRef :=
  (previous.filter (fun s => !(jmGet (settingsById current) s.id).isSome)).map
    (mkSettingRef catMap)

/-- One iteration of the changed-settings loop: a change record is pushed only
when the id has a previous entry, the stored hashes differ, and `diffFields`
is non-empty. -/
def changeFor (catMap : JsMap String) (prevMap : JsMap SettingDefinition)
    (prevHash currHash : JsMap SettingHash) (s : SettingDefinition) :
    Option ChangelogChange :=
  match jmGet prevMap s.id with
  | none => none
  | some oldS =>
    if jmGet prevHash s.id ≠ jmGet currHash s.id then
      if (diffFields oldS s).length > 0 then
        some { id := s.id
               displayName := s.displayName
               categoryId := s.categoryId
               categoryName := jmGet catMap s.categoryId
               platform := s.applicability.bind Applicability.platform
               fields := diffFields oldS s }
      else none
    else none

/-- The changed-settings loop. -/
def diffChanged (catMap : JsMap String) (previous current : List SettingDefinition) :
    List ChangelogChange :=
  current.filterMap
    (changeFor catMap (settingsById previous) (settingHashesById previous)
      (settingHashesById current))

/-- The `ChangelogCategoryRef` literal pushed by the category loops. -/
def mkCategoryRef (c : SettingCategory) : ChangelogCategoryRef :=
  { id := c.id
    displayName := c.displayName
    parentCategoryId := c.parentCategoryId }

/-- The added-categories loop. -/
def diffCategoriesAdded (previousCats currentCats : List SettingCategory) :
    List ChangelogCategoryRef :=
  (currentCats.filter (fun c => !(jmGet (categoriesById previousCats) c.id).isSome)).map
    mkCategoryRef

/-- The removed-categories loop. -/
def diffCategoriesRemoved (previousCats currentCats : List SettingCategory) :
    List ChangelogCategoryRef :=
  (previousCats.filter (fun c => !(jmGet (categoriesById currentCats) c.id).isSome)).map
    mkCategoryRef

/-- One iteration of the changed-categories loop. -/
def catChangeFor (prevCatMap : JsMap SettingCategory)
    (prevHash currHash : JsMap CategoryHash) (c : SettingCategory) :
    Option ChangelogCategoryChange :=
  match jmGet prevCatMap c.id with
  | none => none
  | some oldC =>
    if jmGet prevHash c.id ≠ jmGet currHash c.id then
      if (diffCategoryFields oldC c).length > 0 then
        some { id := c.id
               displayName := c.displayName
               fields := diffCategoryFields oldC c }
      else none
    else none

/-- The changed-categories loop. -/
def diffCategoriesChanged (previousCats currentCats : List SettingCategory) :
    List ChangelogCategoryChange :=
  currentCats.filterMap
    (catChangeFor (categoriesById previousCats) (categoryHashesById previousCats)
      (categoryHashesById currentCats))

/-- The differ's persistent files: `none` models a file that does not exist. -/
structure DifferState where
  previousSettings : Option (List SettingDefinition) := none
  previousCategories : Option (List SettingCategory) := none
  changelog : Option (List ChangelogEntry) := none
deriving DecidableEq

/-- One run of `main()` in generate-changelog.ts. `categoriesFile` models
`data/categories.json` (`none` = absent, parsed as `[]` for diffing but not
copied to the baseline). On a first run (no previous settings snapshot) the
baseline is recorded, an empty changelog is created if missing, and no entry
is emitted; otherwise the six buckets are computed, an entry is prepended
(replacing any same-date entry) only when some bucket is non-empty, and the
snapshots are rotated. -/
def runChangelog (current : List SettingDefinition)
    (categoriesFile : Option (List SettingCategory)) (date : String)
    (st : DifferState) : DifferState :=
  match st.previousSettings with
  | none =>
      { previousSettings := some current
        previousCategories :=
          if categoriesFile.isSome then categoriesFile else st.previousCategories
        changelog := some (st.changelog.getD []) }
  | some previous =>
      let categories := categoriesFile.getD []
      let catMap := categoryNameMap categories
      let added := diffAdded catMap previous current
      let removed := diffRemoved catMap previous current
      let changed := diffChanged catMap previous current
      let prevCats := st.previousCategories.getD []
      let catsAdded := if st.previousCategories.isSome then
          diffCategoriesAdded prevCats categories else []
      let catsRemoved := if st.previousCategories.isSome then
          diffCategoriesRemoved prevCats categories else []
      let catsChanged := if st.previousCategories.isSome then
          diffCategoriesChanged prevCats categories else []
      { previousSettings := some current
        previousCategories :=
          if categoriesFile.isSome then categoriesFile else st.previousCategories
        changelog :=
          if added.length = 0 ∧ removed.length = 0 ∧ changed.length = 0 ∧
              catsAdded.length = 0 ∧ catsRemoved.length = 0 ∧ catsChanged.length = 0
          then st.changelog
          else some (⟨date, added, removed, changed, catsAdded, catsRemoved, catsChanged⟩
            :: (st.changelog.getD []).filter (fun e => e.date != date)) }

/-- `getScope` (scripts/build-search-index.ts). -/
def getScope (baseUri : Option String) : String :=
  if truthy baseUri = false then "unknown"
  else if jsIncludes (jsToLower (getStr baseUri)) "/device/" then "device"
  else if jsIncludes (jsToLower (getStr baseUri)) "/user/" then "user"
  else "unknown"

/-- `getSettingType` (scripts/build-search-index.ts). -/
def getSettingType (odataType : String) : String :=
  if jsIncludes odataType "Choice" then "choice"
  else if jsIncludes odataType "Simple" then "simple"
  else if jsIncludes odataType "Group" then "group"
  else if jsIncludes odataType "Redirect" then "redirect"
  else "unknown"

/-- `Array.prototype.join(' ')`. -/
def joinSpace : List String → String
  | [] => ""
  | [x] => x
  | x :: y :: xs => x ++ " " ++ joinSpace (y :: xs)

/-- The search-index entry loop in `main()` of build-search-index.ts: skip
setting groups, then project each setting, resolving the category display
name with the `'Unknown Category'` fallback. -/
def buildSearchEntries (settings : List SettingDefinition)
    (categories : List SettingCategory) : List SearchIndexEntry :=
  (settings.filter (fun s =>
      !(match s.odataType with
        | some t => jsIncludes t "SettingGroup"
        | none => false))).map (fun s =>
    { id := s.id
      displayName := getStr (jsOr s.displayName s.name)
      description := ⟨(getStr s.description).data.take 300⟩
      keywords := joinSpace (s.keywords.getD [])
      categoryId := s.categoryId
      categoryName :=
        getStr (jsOr (jmGet (categoryNameMap categories) s.categoryId)
          (some "Unknown Category"))
      scope := getScope s.baseUri
      platform := getStr (s.applicability.bind Applicability.platform)
      settingType := getSettingType (getStr s.odataType) })

/-- Modelled from the spec's words, not from the source: the spec's
allow-list for the setting hash — "display name, description, help text,
path/version fields, options, applicability/keywords". -/
structure SpecSettingHash where
  displayName : Option String
  description : Option String
  helpText : Option String
  baseUri : Option String
  offsetUri : Option String
  version : Option String
  options : Option (List String)
  applicability : Option Applicability
  keywords : Option (List String)
deriving DecidableEq

/-- Modelled from the spec's words: the hash over the spec's allow-listed
field subset, to be compared with the source's `hashSetting`. -/
def specHashSetting (s : SettingDefinition) : SpecSettingHash :=
  { displayName := s.displayName
    description := s.description
    helpText := s.helpText
    baseUri := s.baseUri
    offsetUri := s.offsetUri
    version := s.version
    options := s.options
    applicability := s.applicability
    keywords := s.keywords }

/-- Claim C4 counterexample input: the old snapshot of a setting. -/
def c4Old : SettingDefinition :=
  { id := "s", displayName := some "S", keywords := some ["legacy"] }

/-- Claim C4 counterexample input: the same setting with only its keywords
changed. -/
def c4New : SettingDefinition :=
  { id := "s", displayName := some "S", keywords := some ["modern"] }

/-- Claim C8 counterexample input: a setting whose `categoryId` resolves to
no known category. -/
def c8Setting : SettingDefinition :=
  { id := "s1", displayName := some "S1", categoryId := "ghost" }

/-- The search-index entry produced for `c8Setting` with no categories. -/
def c8Entry : SearchIndexEntry :=
  { id := "s1"
    displayName := "S1"
    description := ""
    keywords := ""
    categoryId := "ghost"
    categoryName := "Unknown Category"
    scope := "unknown"
    platform := ""
    settingType := "unknown" }

theorem jmGet_fold_set_isSome {α β : Type} (f : α → β) (key : α → String)
    (l : List α) (m0 : JsMap β) (a : α)
    (ha : a ∈ l ∨ (jmGet m0 (key a)).isSome = true) :
    (jmGet (l.foldl (fun m x => jmSet m (key x) (f x)) m0) (key a)).isSome = true := by
  induction l generalizing m0 with
  | nil =>
    rcases ha with h | h
    · cases h
    · exact h
  | cons x t ih =>
    simp only [List.foldl_cons]
    apply ih
    rcases ha with h | h
    · rcases List.mem_cons.mp h with rfl | h2
      · right
        rw [jmGet_jmSet_self]
        rfl
      · left
        exact h2
    · right
      by_cases hk : key a = key x
      · rw [hk, jmGet_jmSet_self]
        rfl
      · rw [jmGet_jmSet_ne _ _ hk]
        exact h

theorem jmGet_fold_set_ne {α β : Type} (f : α → β) (key : α → String)
    (l : List α) (m0 : JsMap β) (k : String) (h : ∀ x ∈ l, key x ≠ k) :
    jmGet (l.foldl (fun m x => jmSet m (key x) (f x)) m0) k = jmGet m0 k := by
  induction l generalizing m0 with
  | nil => rfl
  | cons x t ih =>
    simp only [List.foldl_cons]
    rw [ih _ (fun y hy => h y (List.mem_cons_of_mem _ hy)),
      jmGet_jmSet_ne _ _ (fun he => h x (List.mem_cons_self _ _) he.symm)]

theorem jmGet_fold_set_mem {α β : Type} (f : α → β) (key : α → String)
    {l : List α} (hl : l.Pairwise (fun a b => key a ≠ key b)) {a : α} (ha : a ∈ l)
    (m0 : JsMap β) :
    jmGet (l.foldl (fun m x => jmSet m (key x) (f x)) m0) (key a) = some (f a) := by
  induction l generalizing m0 with
  | nil => cases ha
  | cons x t ih =>
    simp only [List.foldl_cons]
    rcases List.mem_cons.mp ha with rfl | h2
    · rw [jmGet_fold_set_ne f key t _ _
        (fun y hy hk => (List.pairwise_cons.mp hl).1 y hy hk.symm),
        jmGet_jmSet_self]
    · exact ih (List.pairwise_cons.mp hl).2 h2 _

/-- Claim C9: diffing a snapshot against itself — identical previous and
current settings and identical previous and current categories — yields six
empty buckets: nothing added, removed, or changed on either side. -/
theorem diff_self_all_empty (catMap : JsMap String)
    (current : List SettingDefinition) (categories : List SettingCategory) :
    diffAdded catMap current current = [] ∧
    diffRemoved catMap current current = [] ∧
    diffChanged catMap current current = [] ∧
    diffCategoriesAdded categories categories = [] ∧
    diffCategoriesRemoved categories categories = [] ∧
    diffCategoriesChanged categories categories = [] := by
  have hsettings : ∀ s ∈ current, (jmGet (settingsById current) s.id).isSome = true := by
    intro s hs
    exact jmGet_fold_set_isSome (fun x => x) (fun x => x.id) current [] s (Or.inl hs)
  have hcats : ∀ c ∈ categories, (jmGet (categoriesById categories) c.id).isSome = true := by
    intro c hc
    exact jmGet_fold_set_isSome (fun x => x) (fun x => x.id) categories [] c (Or.inl hc)
  have hfilter : current.filter (fun s => !(jmGet (settingsById current) s.id).isSome) = [] := by
    rw [List.filter_eq_nil_iff]
    intro s hs
    rw [hsettings s hs]
    exact Bool.noConfusion
  have hcfilter : categories.filter
      (fun c => !(jmGet (categoriesById categories) c.id).isSome) = [] := by
    rw [List.filter_eq_nil_iff]
    intro c hc
    rw [hcats c hc]
    exact Bool.noConfusion
  refine ⟨?_, ?_, ?_, ?_, ?_, ?_⟩
  · rw [diffAdded, hfilter]
    rfl
  · rw [diffRemoved, hfilter]
    rfl
  · rw [diffChanged, List.filterMap_eq_nil_iff]
    intro s _
    unfold changeFor
    cases jmGet (settingsById current) s.id with
    | none => rfl
    | some oldS => simp
  · rw [diffCategoriesAdded, hcfilter]
    rfl
  · rw [diffCategoriesRemoved, hcfilter]
    rfl
  · rw [diffCategoriesChanged, List.filterMap_eq_nil_iff]
    intro c _
    unfold catChangeFor
    cases jmGet (categoriesById categories) c.id with
    | none => rfl
    | some oldC => simp

/-- Claim C5: on the differ's first-ever run (no previous settings snapshot),
no changelog entry is emitted — the changelog content is exactly what was
already there (an empty list if the file was missing) — and the current
snapshot is recorded as the baseline for the next run. -/
theorem changelog_first_run_baseline (current : List SettingDefinition)
    (categoriesFile : Option (List SettingCategory)) (date : String)
    (st : DifferState) (h : st.previousSettings = none) :
    (runChangelog current categoriesFile date st).changelog
        = some (st.changelog.getD []) ∧
    (runChangelog current categoriesFile date st).previousSettings = some current := by
  unfold runChangelog
  rw [h]
  exact ⟨rfl, rfl⟩

/-- Witness for claim C5 at a concrete first run: 1 current setting, no
previous snapshot, no changelog file — the changelog stays empty and the
baseline is recorded. -/
theorem changelog_first_run_baseline_witness :
    (⟨none, none, none⟩ : DifferState).previousSettings = none ∧
    ((runChangelog [c8Setting] none "2026-02-03" ⟨none, none, none⟩).changelog
        = some ((⟨none, none, none⟩ : DifferState).changelog.getD []) ∧
     (runChangelog [c8Setting] none "2026-02-03" ⟨none, none, none⟩).previousSettings
        = some [c8Setting]) :=
  ⟨rfl, changelog_first_run_baseline [c8Setting] none "2026-02-03" ⟨none, none, none⟩ rfl⟩

/-- Claim C4 is false as stated: keywords (and version) are in the spec's
allow-list but absent from the source's `hashSetting`, so a keywords-only
change alters the spec's hash yet produces no changed entry even though the
id is present in both snapshots. -/
theorem diffChanged_misses_keyword_change :
    specHashSetting c4Old ≠ specHashSetting c4New ∧
    hashSetting c4Old = hashSetting c4New ∧
    (jmGet (settingsById [c4Old]) c4New.id).isSome = true ∧
    diffChanged [] [c4Old] [c4New] = [] := by decide

theorem changeFor_some (catMap : JsMap String) (prevMap : JsMap SettingDefinition)
    (prevHash currHash : JsMap SettingHash) (s : SettingDefinition)
    (c : ChangelogChange) (h : changeFor catMap prevMap prevHash currHash s = some c) :
    c.id = s.id ∧
    (∃ oldS, jmGet prevMap s.id = some oldS ∧ c.fields = diffFields oldS s ∧
      (diffFields oldS s).length > 0) ∧
    jmGet prevHash s.id ≠ jmGet currHash s.id := by
  unfold changeFor at h
  cases hg : jmGet prevMap s.id with
  | none =>
    rw [hg] at h
    cases h
  | some o =>
    rw [hg] at h
    dsimp only at h
    by_cases h1 : jmGet prevHash s.id ≠ jmGet currHash s.id
    · rw [if_pos h1] at h
      by_cases h2 : (diffFields o s).length > 0
      · rw [if_pos h2] at h
        injection h with h3
        subst h3
        exact ⟨rfl, ⟨o, rfl, rfl, h2⟩, h1⟩
      · rw [if_neg h2] at h
        cases h
    · rw [if_neg h1] at h
      cases h

theorem mem_ite_singleton {α : Type} {p : Prop} [Decidable p] {x fd : α}
    (h : fd ∈ if p then [x] else ([] : List α)) : fd = x := by
  by_cases hp : p
  · rw [if_pos hp] at h
    exact List.mem_singleton.mp h
  · rw [if_neg hp] at h
    cases h

theorem diffFields_field_mem (a b : SettingDefinition) (fd : FieldDiff)
    (h : fd ∈ diffFields a b) :
    fd.field ∈ ["displayName", "description", "helpText", "categoryId",
      "baseUri", "offsetUri", "options", "applicability"] := by
  unfold diffFields strFieldDiff at h
  rcases List.mem_append.mp h with h | h
  swap
  · rw [mem_ite_singleton h]
    simp
  rcases List.mem_append.mp h with h | h
  swap
  · rw [mem_ite_singleton h]
    simp
  rcases List.mem_append.mp h with h | h
  swap
  · rw [mem_ite_singleton h]
    simp
  rcases List.mem_append.mp h with h | h
  swap
  · rw [mem_ite_singleton h]
    simp
  rcases List.mem_append.mp h with h | h
  swap
  · rw [mem_ite_singleton h]
    simp
  rcases List.mem_append.mp h with h | h
  swap
  · rw [mem_ite_singleton h]
    simp
  rcases List.mem_append.mp h with h | h
  swap
  · rw [mem_ite_singleton h]
    simp
  rw [mem_ite_singleton h]
  simp

/-- Claim C4, amended: with pairwise-distinct ids, a setting id present in
both snapshots appears in the changed bucket iff the source's hashed field
subset (display name, description, help text, categoryId, baseUri, offsetUri,
options, valueDefinition, applicability — no version, no keywords) differs
AND `diffFields` is non-empty (so a valueDefinition-only change is hashed but
never reported); every reported field name is drawn from the `diffFields`
allow-list. -/
theorem diffChanged_iff_hash_and_fields (catMap : JsMap String)
    (previous current : List SettingDefinition)
    (hprev : previous.Pairwise (fun a b => a.id ≠ b.id))
    (hcurr : current.Pairwise (fun a b => a.id ≠ b.id))
    (oldS newS : SettingDefinition) (hold : oldS ∈ previous) (hnew : newS ∈ current)
    (hid : oldS.id = newS.id) :
    ((∃ c ∈ diffChanged catMap previous current, c.id = newS.id) ↔
      (hashSetting oldS ≠ hashSetting newS ∧ diffFields oldS newS ≠ [])) ∧
    ∀ c ∈ diffChanged catMap previous current, ∀ fd ∈ c.fields,
      fd.field ∈ ["displayName", "description", "helpText", "categoryId",
        "baseUri", "offsetUri", "options", "applicability"] := by
  have hPrevGet : jmGet (settingsById previous) newS.id = some oldS := by
    rw [← hid]
    exact jmGet_fold_set_mem (fun x => x) (fun x => x.id) hprev hold []
  have hPrevHash : jmGet (settingHashesById previous) newS.id = some (hashSetting oldS) := by
    rw [← hid]
    exact jmGet_fold_set_mem hashSetting (fun x => x.id) hprev hold []
  have hCurrHash : jmGet (settingHashesById current) newS.id = some (hashSetting newS) :=
    jmGet_fold_set_mem hashSetting (fun x => x.id) hcurr hnew []
  constructor
  · constructor
    · rintro ⟨c, hc, hcid⟩
      obtain ⟨s, hs, hsome⟩ := List.mem_filterMap.mp hc
      obtain ⟨hids, ⟨o, ho, _, hlen⟩, hhash⟩ := changeFor_some _ _ _ _ _ _ hsome
      have hsnew : s = newS := distinct_id_inj hcurr hs hnew (by rw [← hids, hcid])
      subst hsnew
      rw [hPrevGet] at ho
      injection ho with ho
      subst ho
      rw [hPrevHash, hCurrHash] at hhash
      refine ⟨fun he => hhash (by rw [he]), ?_⟩
      intro he
      rw [he] at hlen
      cases hlen
    · rintro ⟨hne, hfields⟩
      have hhash : jmGet (settingHashesById previous) newS.id
          ≠ jmGet (settingHashesById current) newS.id := by
        rw [hPrevHash, hCurrHash]
        intro he
        injection he with he
        exact hne he
      have hlen : (diffFields oldS newS).length > 0 := List.length_pos.mpr hfields
      have hcf : changeFor catMap (settingsById previous) (settingHashesById previous)
          (settingHashesById current) newS = some
            { id := newS.id
              displayName := newS.displayName
              categoryId := newS.categoryId
              categoryName := jmGet catMap newS.categoryId
              platform := newS.applicability.bind Applicability.platform
              fields := diffFields oldS newS } := by
        unfold changeFor
        rw [hPrevGet]
        dsimp only
        rw [if_pos hhash, if_pos hlen]
      exact ⟨_, List.mem_filterMap.mpr ⟨newS, hnew, hcf⟩, rfl⟩
  · intro c hc fd hfd
    obtain ⟨s, _, hsome⟩ := List.mem_filterMap.mp hc
    obtain ⟨_, ⟨o, _, hcf, _⟩, _⟩ := changeFor_some _ _ _ _ _ _ hsome
    rw [hcf] at hfd
    exact diffFields_field_mem o s fd hfd

/-- Witness for the amended claim C4 at a concrete input: a display-name-only
change is hashed, diffed, and reported under an allow-listed field name. -/
theorem diffChanged_iff_hash_and_fields_witness :
    ([c4Old].Pairwise (fun a b => a.id ≠ b.id) ∧
      [c4New].Pairwise (fun a b => a.id ≠ b.id) ∧
      c4Old ∈ [c4Old] ∧ c4New ∈ [c4New] ∧ c4Old.id = c4New.id) ∧
    (((∃ c ∈ diffChanged [] [c4Old] [c4New], c.id = c4New.id) ↔
        (hashSetting c4Old ≠ hashSetting c4New ∧ diffFields c4Old c4New ≠ [])) ∧
      ∀ c ∈ diffChanged [] [c4Old] [c4New], ∀ fd ∈ c.fields,
        fd.field ∈ ["displayName", "description", "helpText", "categoryId",
          "baseUri", "offsetUri", "options", "applicability"]) :=
  ⟨by decide,
    diffChanged_iff_hash_and_fields [] [c4Old] [c4New] (by decide) (by decide)
      c4Old c4New (by decide) (by decide) (by decide)⟩

/-- Claim C8 is false as stated: a changelog setting reference with an
unresolvable `categoryId` carries no category display name at all — the bare
map lookup, with no `'Unknown Category'` sentinel. -/
theorem changelog_ref_missing_category_name :
    (diffAdded (categoryNameMap []) [] [c8Setting]).map ChangelogSettingRef.categoryName
        = [none] ∧
    ∀ r ∈ diffAdded (categoryNameMap []) [] [c8Setting],
      r.categoryName ≠ some "Unknown Category" := by decide

theorem getStr_jsOr_sentinel (o : Option String) (d : String) :
    getStr (jsOr o (some d)) = if truthy o = true then getStr o else d := by
  unfold jsOr
  split
  · rfl
  · rfl

/-- Claim C8, amended: search-index entries always carry a non-empty category
display name — the resolved name when the lookup is truthy, else the
`'Unknown Category'` sentinel — but changelog setting references carry the
bare lookup, which is `none` (no name, no sentinel) when the `categoryId`
does not resolve. -/
theorem categoryName_sentinel_in_search_index (settings : List SettingDefinition)
    (categories : List SettingCategory) (catMap : JsMap String)
    (previous current : List SettingDefinition) :
    (∀ e ∈ buildSearchEntries settings categories,
      e.categoryName =
        if truthy (jmGet (categoryNameMap categories) e.categoryId) = true
        then getStr (jmGet (categoryNameMap categories) e.categoryId)
        else "Unknown Category") ∧
    (∀ e ∈ buildSearchEntries settings categories, e.categoryName ≠ "") ∧
    (∀ r ∈ diffAdded catMap previous current, r.categoryName = jmGet catMap r.categoryId) ∧
    (∀ r ∈ diffRemoved catMap previous current, r.categoryName = jmGet catMap r.categoryId) := by
  have hmain : ∀ e ∈ buildSearchEntries settings categories,
      e.categoryName =
        if truthy (jmGet (categoryNameMap categories) e.categoryId) = true
        then getStr (jmGet (categoryNameMap categories) e.categoryId)
        else "Unknown Category" := by
    intro e he
    obtain ⟨s, _, rfl⟩ := List.mem_map.mp he
    exact getStr_jsOr_sentinel _ _
  refine ⟨hmain, ?_, ?_, ?_⟩
  · intro e he
    rw [hmain e he]
    cases hg : jmGet (categoryNameMap categories) e.categoryId with
    | none =>
      rw [if_neg (by simp [truthy])]
      decide
    | some v =>
      by_cases hv : v = ""
      · subst hv
        rw [if_neg (by simp [truthy])]
        decide
      · rw [if_pos (by simp [truthy, hv])]
        exact hv
  · intro r hr
    obtain ⟨s, _, rfl⟩ := List.mem_map.mp hr
    rfl
  · intro r hr
    obtain ⟨s, _, rfl⟩ := List.mem_map.mp hr
    rfl

/-- Witness for the amended claim C8 at a concrete input: the search entry
for a setting with an unresolvable category carries the sentinel. -/
theorem categoryName_sentinel_in_search_index_witness :
    c8Entry ∈ buildSearchEntries [c8Setting] [] ∧
    c8Entry.categoryName =
      (if truthy (jmGet (categoryNameMap []) c8Entry.categoryId) = true
       then getStr (jmGet (categoryNameMap []) c8Entry.categoryId)
       else "Unknown Category") :=
  ⟨by decide,
    (categoryName_sentinel_in_search_index [c8Setting] [] [] [] []).1 c8Entry (by decide)⟩

/-! ## The category tree builder (`buildCategoryTree` in build-search-index.ts) -/

/-- A category tree node: the source category (spread into the node), the
current display name (mutated by disambiguation), the children, and the
setting count. -/
inductive CategoryTreeNode where
  | node (cat : SettingCategory) (displayName : String)
      (children : List CategoryTreeNode) (settingCount : Nat)

def CategoryTreeNode.cat : CategoryTreeNode → SettingCategory
  | .node c _ _ _ => c

def CategoryTreeNode.displayName : CategoryTreeNode → String
  | .node _ d _ _ => d

def CategoryTreeNode.children : CategoryTreeNode → List CategoryTreeNode
  | .node _ _ ch _ => ch

def CategoryTreeNode.settingCount : CategoryTreeNode → Nat
  | .node _ _ _ k => k

/-- A node's id is the spread category's id (never mutated). -/
def CategoryTreeNode.nid : CategoryTreeNode → String
  | .node c _ _ _ => c.id

/-- `nodeMap`'s values in iteration order: one category per id, first
position, last value. -/
def uniqueCats (categories : List SettingCategory) : List SettingCategory :=
  (categoriesById categories).map (·.2)

/-- The root test in the tree loop:
`node.parentCategoryId === node.id || !node.parentCategoryId`. -/
def isRootCat (c : SettingCategory) : Bool :=
  c.parentCategoryId == c.id || c.parentCategoryId == ""

/-- The nodes attached under the node with id `pid`, in `nodeMap` order:
non-roots whose parent lookup finds `pid`. -/
def childCats (vals : List SettingCategory) (pid : String) : List SettingCategory :=
  vals.filter (fun c => !isRootCat c && c.parentCategoryId == pid)

/-- The root list: self/falsy-parent roots plus orphans whose parent id is
not a `nodeMap` key, in `nodeMap` order. -/
def rootCats (categories : List SettingCategory) : List SettingCategory :=
  (uniqueCats categories).filter (fun c =>
    isRootCat c || !(jmGet (categoriesById categories) c.parentCategoryId).isSome)

/-- Build the subtree at `c` from the flat parent relation; `fuel` bounds the
depth (every node reachable from a root sits at depth at most the number of
distinct categories, and a parent cycle is unreachable from any root). -/
def buildNode (categories : List SettingCategory) (counts : JsMap Nat) :
    Nat → SettingCategory → CategoryTreeNode
  | 0, c => .node c c.displayName [] ((jmGet counts c.id).getD 0)
  | fuel+1, c => .node c c.displayName
      ((childCats (uniqueCats categories) c.id).map (buildNode categories counts fuel))
      ((jmGet counts c.id).getD 0)

/-- The forest as first assembled (`nodeMap`, roots, children). -/
def baseForest (categories : List SettingCategory) (counts : JsMap Nat) :
    List CategoryTreeNode :=
  (rootCats categories).map
    (buildNode categories counts (categories.length + 1))

/-- The `sortTree` comparator: `a.displayName.localeCompare(b.displayName)`. -/
def nodeNameLE (a b : CategoryTreeNode) : Bool :=
  localeCompare a.displayName b.displayName ≤ 0

mutual

def sortNode : CategoryTreeNode → CategoryTreeNode
  | .node c d ch k => .node c d (insSort nodeNameLE (sortForestAux ch)) k

def sortForestAux : List CategoryTreeNode → List CategoryTreeNode
  | [] => []
  | t :: ts => sortNode t :: sortForestAux ts

end

/-- `sortTree`: stable-sort each sibling list alphabetically by display name,
recursing into children. -/
def sortForest (l : List CategoryTreeNode) : List CategoryTreeNode :=
  insSort nodeNameLE (sortForestAux l)

/-- `metaKey`. -/
def metaKey (n : CategoryTreeNode) : String :=
  getStr n.cat.platforms ++ "|" ++ getStr n.cat.technologies ++ "|"
    ++ getStr n.cat.settingUsage

/-- The platform label table (`map[p.trim()] || p.trim()`). -/
def platName (p : String) : String :=
  if p == "windows10" then "Windows"
  else if p == "macOS" then "macOS"
  else if p == "iOS" then "iOS/iPadOS"
  else if p == "android" then "Android"
  else if p == "androidEnterprise" then "Android Enterprise"
  else if p == "aosp" then "AOSP"
  else if p == "linux" then "Linux"
  else p

/-- `Array.prototype.join(', ')`. -/
def joinComma : List String → String
  | [] => ""
  | [x] => x
  | x :: y :: xs => x ++ ", " ++ joinComma (y :: xs)

/-- `platformLabel`. -/
def platformLabel (platforms : List String) : String :=
  joinComma ((platforms.map (fun p => platName (jsTrim p))).filter (fun s => s != ""))

/-- The disambiguation rename: append the platform label when non-empty. -/
def relabelNode (n : CategoryTreeNode) : CategoryTreeNode :=
  if platformLabel (jsSplitCommas (getStr (jsOr n.cat.platforms (some "unknown")))) != ""
  then .node n.cat
    (n.displayName ++ " ("
      ++ platformLabel (jsSplitCommas (getStr (jsOr n.cat.platforms (some "unknown"))))
      ++ ")")
    n.children n.settingCount
  else n

/-- The by-count-descending group sort: `(a, b) => b.settingCount - a.settingCount`. -/
def pairCountDescLE (a b : Nat × CategoryTreeNode) : Bool :=
  b.2.settingCount ≤ a.2.settingCount

/-- `group.every(n => metaKey(n) === metaKey(group[0]))`. -/
def allSameMeta : List (Nat × CategoryTreeNode) → Bool
  | [] => true
  | p :: rest => (p :: rest).all (fun q => metaKey q.2 == metaKey p.2)

/-- Merge a same-meta group (already sorted by count descending): the primary
absorbs every secondary's setting count and children; secondary ids go to the
removal set and the merge map. -/
def mergeGroup (g : List (Nat × CategoryTreeNode)) :
    List (Nat × CategoryTreeNode) × List String × List (String × String) :=
  match g with
  | [] => ([], [], [])
  | p :: rest =>
      ((p.1, CategoryTreeNode.node p.2.cat p.2.displayName
          (p.2.children ++ (rest.map (fun q => q.2.children)).flatten)
          (p.2.settingCount + (rest.map (fun q => q.2.settingCount)).sum)) :: rest,
        rest.map (fun q => q.2.nid),
        rest.map (fun q => (q.2.nid, p.2.nid)))

/-- Disambiguate a different-meta group (already sorted by count descending):
the main variant keeps its name, the rest get platform labels. -/
def relabelGroup (g : List (Nat × CategoryTreeNode)) : List (Nat × CategoryTreeNode) :=
  match g with
  | [] => []
  | p :: rest => p :: rest.map (fun q => (q.1, relabelNode q.2))

/-- Process one display-name group. -/
def processGroup (g : List (Nat × CategoryTreeNode)) :
    List (Nat × CategoryTreeNode) × List String × List (String × String) :=
  if g.length ≤ 1 then (g, [], [])
  else if allSameMeta g then mergeGroup (insSort pairCountDescLE g)
  else (relabelGroup (insSort pairCountDescLE g), [], [])

/-- Process every group, concatenating replacements, removal ids, and merge
map entries in group order. -/
def processGroups (gs : List (String × List (Nat × CategoryTreeNode))) :
    List (Nat × CategoryTreeNode) × List String × List (String × String) :=
  match gs with
  | [] => ([], [], [])
  | (_, g) :: rest =>
      ((processGroup g).1 ++ (processGroups rest).1,
        (processGroup g).2.1 ++ (processGroups rest).2.1,
        (processGroup g).2.2 ++ (processGroups rest).2.2)

/-- `byName`: group the indexed siblings by display name, first-appearance
order, each group in sibling order. -/
def byNameGroups (l : List (Nat × CategoryTreeNode)) :
    JsMap (List (Nat × CategoryTreeNode)) :=
  l.foldl (fun m p =>
    jmSet m p.2.displayName ((jmGet m p.2.displayName).getD [] ++ [p])) []

/-- Look up the processed replacement for sibling position `i`. -/
def findIdx (repl : List (Nat × CategoryTreeNode)) (i : Nat) : Option CategoryTreeNode :=
  (repl.find? (fun p => p.1 == i)).map (·.2)

/-- Reassemble the sibling array in its original position order from the
processed groups (mutations are visible through the shared references). -/
def applyRepl (repl : List (Nat × CategoryTreeNode))
    (indexed : List (Nat × CategoryTreeNode)) : List CategoryTreeNode :=
  indexed.map (fun p => (findIdx repl p.1).getD p.2)

/-- One level of `deduplicateSiblings` before recursion: the reassembled
sibling values, the removal ids, and the merge-map entries. -/
def dedupLevel (l : List CategoryTreeNode) :
    List CategoryTreeNode × List String × List (String × String) :=
  (applyRepl (processGroups (byNameGroups l.enum)).1 l.enum,
    (processGroups (byNameGroups l.enum)).2.1,
    (processGroups (byNameGroups l.enum)).2.2)

/-- The removal loop's survivors: siblings whose id is not in the removal
set. -/
def dedupSurvivors (l : List CategoryTreeNode) : List CategoryTreeNode :=
  (dedupLevel l).1.filter (fun n => !((dedupLevel l).2.1.contains n.nid))

/-- `deduplicateSiblings`: process one level, remove merged-away nodes, then
recurse into each survivor's children. `fuel` bounds the depth. Returns the
new forest and the merge-map entries. -/
def dedupSiblings : Nat → List CategoryTreeNode →
    List CategoryTreeNode × List (String × String)
  | 0, l => (l, [])
  | fuel+1, l =>
      ((dedupSurvivors l).map (fun n =>
          CategoryTreeNode.node n.cat n.displayName
            (dedupSiblings fuel n.children).1 n.settingCount),
        (dedupLevel l).2.2 ++
          ((dedupSurvivors l).map (fun n => (dedupSiblings fuel n.children).2)).flatten)

/-- The sum of a node list's (current) setting counts. -/
def sumCounts (l : List CategoryTreeNode) : Nat :=
  (l.map CategoryTreeNode.settingCount).sum

mutual

/-- `rollUpCounts`: every node's count becomes its own count plus the sum of
its (rolled-up) children's counts. -/
def rollUpNode : CategoryTreeNode → CategoryTreeNode
  | .node c d ch k => .node c d (rollUpForest ch) (k + sumCounts (rollUpForest ch))

def rollUpForest : List CategoryTreeNode → List CategoryTreeNode
  | [] => []
  | t :: ts => rollUpNode t :: rollUpForest ts

end

mutual

/-- The sum of a subtree's own (pre-roll-up) counts, each node counted
exactly once. -/
def ownSum : CategoryTreeNode → Nat
  | .node _ _ ch k => k + ownSumF ch

def ownSumF : List CategoryTreeNode → Nat
  | [] => 0
  | t :: ts => ownSum t + ownSumF ts

end

mutual

/-- Every id in a forest, in preorder. -/
def forestIds : List CategoryTreeNode → List String
  | [] => []
  | t :: ts => nodeIds t ++ forestIds ts

def nodeIds : CategoryTreeNode → List String
  | .node c _ ch _ => c.id :: forestIds ch

end

/-- The forest fed into the roll-up: first `sortTree`, then
`deduplicateSiblings`, then the re-`sortTree`. -/
def dedupedForest (categories : List SettingCategory) (counts : JsMap Nat) :
    List CategoryTreeNode :=
  sortForest
    (dedupSiblings (categories.length + 1)
      (sortForest (baseForest categories counts))).1

/-- `buildCategoryTree`: the rolled-up forest and the merge map. -/
def buildCategoryTree (categories : List SettingCategory) (counts : JsMap Nat) :
    List CategoryTreeNode × JsMap String :=
  (rollUpForest (dedupedForest categories counts),
    (dedupSiblings (categories.length + 1)
        (sortForest (baseForest categories counts))).2.foldl
      (fun m p => jmSet m p.1 p.2) [])

theorem ownSum_eq (t : CategoryTreeNode) :
    ownSum t = t.settingCount + ownSumF t.children := by
  cases t
  rfl

theorem rollUpForest_eq_map (l : List CategoryTreeNode) :
    rollUpForest l = l.map rollUpNode := by
  induction l with
  | nil => rfl
  | cons t ts ih => rw [rollUpForest, ih, List.map_cons]

mutual

theorem rollUpNode_ownSum : ∀ t : CategoryTreeNode,
    (rollUpNode t).settingCount = ownSum t
  | .node c d ch k => by
    rw [rollUpNode, ownSum, CategoryTreeNode.settingCount,
      rollUpForest_ownSumF ch]

theorem rollUpForest_ownSumF : ∀ l : List CategoryTreeNode,
    sumCounts (rollUpForest l) = ownSumF l
  | [] => by rw [rollUpForest, ownSumF, sumCounts, List.map_nil, List.sum_nil]
  | t :: ts => by
    rw [rollUpForest, ownSumF, sumCounts, List.map_cons, List.sum_cons,
      rollUpNode_ownSum t, ← rollUpForest_ownSumF ts]
    rfl

end

theorem rollUpNode_children (t : CategoryTreeNode) :
    (rollUpNode t).children = rollUpForest t.children := by
  cases t
  rfl

theorem rollUpNode_count_eq (t : CategoryTreeNode) :
    (rollUpNode t).settingCount
      = t.settingCount + sumCounts (rollUpNode t).children := by
  cases t
  rfl

theorem ownSumF_eq_sum (l : List CategoryTreeNode) :
    ownSumF l = (l.map ownSum).sum := by
  induction l with
  | nil => rfl
  | cons t ts ih => rw [ownSumF, ih, List.map_cons, List.sum_cons]

theorem ownSumF_perm {l l' : List CategoryTreeNode} (h : l.Perm l') :
    ownSumF l = ownSumF l' := by
  rw [ownSumF_eq_sum, ownSumF_eq_sum]
  exact (h.map ownSum).sum_eq

theorem ownSumF_append (a b : List CategoryTreeNode) :
    ownSumF (a ++ b) = ownSumF a + ownSumF b := by
  rw [ownSumF_eq_sum, ownSumF_eq_sum, ownSumF_eq_sum, List.map_append,
    List.sum_append]

mutual

theorem sortNode_ownSum : ∀ t : CategoryTreeNode, ownSum (sortNode t) = ownSum t
  | .node c d ch k => by
    rw [sortNode, ownSum, ownSum,
      ownSumF_perm (insSort_perm nodeNameLE (sortForestAux ch)),
      sortForestAux_ownSumF ch]

theorem sortForestAux_ownSumF : ∀ l : List CategoryTreeNode,
    ownSumF (sortForestAux l) = ownSumF l
  | [] => rfl
  | t :: ts => by
    rw [sortForestAux, ownSumF, ownSumF, sortNode_ownSum t,
      sortForestAux_ownSumF ts]

end

theorem sortForest_ownSumF (l : List CategoryTreeNode) :
    ownSumF (sortForest l) = ownSumF l := by
  rw [sortForest, ownSumF_perm (insSort_perm nodeNameLE (sortForestAux l)),
    sortForestAux_ownSumF l]

theorem jmSet_append_flat {α : Type} (m : JsMap (List α)) (k : String) (p : α) :
    ((jmSet m k ((jmGet m k).getD [] ++ [p])).map (·.2)).flatten.Perm
      ((m.map (·.2)).flatten ++ [p]) := by
  induction m with
  | nil => simp [jmSet, jmGet, List.find?]
  | cons q rest ih =>
    by_cases h : q.1 == k
    · rw [jmSet]
      rw [if_pos h, jmGet_cons, if_pos h]
      simp only [List.map_cons, List.flatten_cons, Option.getD_some]
      have h1 : (q.2 ++ [p]) ++ (rest.map (·.2)).flatten
          = q.2 ++ ([p] ++ (rest.map (·.2)).flatten) := by
        rw [List.append_assoc]
      have h2 : (q.2 ++ ([p] ++ (rest.map (·.2)).flatten)).Perm
          (q.2 ++ ((rest.map (·.2)).flatten ++ [p])) :=
        List.Perm.append_left q.2 List.perm_append_comm
      have h3 : q.2 ++ ((rest.map (·.2)).flatten ++ [p])
          = (q.2 ++ (rest.map (·.2)).flatten) ++ [p] := by
        rw [List.append_assoc]
      rw [h1, ← h3]
      exact h2
    · rw [jmSet]
      rw [if_neg h, jmGet_cons, if_neg h]
      simp only [List.map_cons, List.flatten_cons]
      have h2 := ih
      rw [List.append_assoc]
      exact List.Perm.append_left q.2 ih

theorem byNameGroups_foldl_flat (L : List (Nat × CategoryTreeNode)) :
    ∀ m : JsMap (List (Nat × CategoryTreeNode)),
      (((L.foldl (fun m p =>
          jmSet m p.2.displayName ((jmGet m p.2.displayName).getD [] ++ [p])) m)).map
        (·.2)).flatten.Perm ((m.map (·.2)).flatten ++ L) := by
  induction L with
  | nil =>
    intro m
    simp
  | cons p L' ih =>
    intro m
    rw [List.foldl_cons]
    refine (ih _).trans ?_
    have h1 := List.Perm.append_right L' (jmSet_append_flat m p.2.displayName p)
    refine h1.trans ?_
    rw [List.append_assoc]
    rfl

theorem byNameGroups_flat (L : List (Nat × CategoryTreeNode)) :
    (((byNameGroups L).map (·.2)).flatten).Perm L := by
  have h := byNameGroups_foldl_flat L []
  simpa using h

theorem nid_eq_cat_id (t : CategoryTreeNode) : t.nid = t.cat.id := by
  cases t
  rfl

theorem relabelNode_cat (n : CategoryTreeNode) : (relabelNode n).cat = n.cat := by
  unfold relabelNode
  split
  · rfl
  · rfl

theorem relabelNode_ownSum (n : CategoryTreeNode) :
    ownSum (relabelNode n) = ownSum n := by
  unfold relabelNode
  split
  · cases n
    rfl
  · rfl

theorem mergeGroup_keys (g : List (Nat × CategoryTreeNode)) :
    (mergeGroup g).1.map (·.1) = g.map (·.1) := by
  cases g with
  | nil => rfl
  | cons p rest => rfl

theorem mergeGroup_nids (g : List (Nat × CategoryTreeNode)) :
    (mergeGroup g).1.map (fun p => p.2.nid) = g.map (fun p => p.2.nid) := by
  cases g with
  | nil => rfl
  | cons p rest =>
    rw [mergeGroup]
    simp only [List.map_cons]
    rw [nid_eq_cat_id p.2]
    rfl

theorem relabelGroup_keys (g : List (Nat × CategoryTreeNode)) :
    (relabelGroup g).map (·.1) = g.map (·.1) := by
  cases g with
  | nil => rfl
  | cons p rest =>
    rw [relabelGroup]
    simp [List.map_map]

theorem relabelGroup_nids (g : List (Nat × CategoryTreeNode)) :
    (relabelGroup g).map (fun p => p.2.nid) = g.map (fun p => p.2.nid) := by
  cases g with
  | nil => rfl
  | cons p rest =>
    rw [relabelGroup]
    simp only [List.map_cons, List.map_map]
    congr 1
    apply List.map_congr_left
    intro q _
    simp only [Function.comp_apply]
    rw [nid_eq_cat_id, nid_eq_cat_id, relabelNode_cat]

theorem processGroup_keys (g : List (Nat × CategoryTreeNode)) :
    ((processGroup g).1.map (·.1)).Perm (g.map (·.1)) := by
  unfold processGroup
  by_cases h1 : g.length ≤ 1
  · rw [if_pos h1]
  · rw [if_neg h1]
    by_cases h2 : allSameMeta g = true
    · rw [if_pos h2, mergeGroup_keys]
      exact (insSort_perm pairCountDescLE g).map _
    · rw [if_neg h2]
      rw [relabelGroup_keys]
      exact (insSort_perm pairCountDescLE g).map _

theorem processGroup_nids (g : List (Nat × CategoryTreeNode)) :
    ((processGroup g).1.map (fun p => p.2.nid)).Perm (g.map (fun p => p.2.nid)) := by
  unfold processGroup
  by_cases h1 : g.length ≤ 1
  · rw [if_pos h1]
  · rw [if_neg h1]
    by_cases h2 : allSameMeta g = true
    · rw [if_pos h2, mergeGroup_nids]
      exact (insSort_perm pairCountDescLE g).map _
    · rw [if_neg h2]
      rw [relabelGroup_nids]
      exact (insSort_perm pairCountDescLE g).map _

theorem processGroup_remove_sub (g : List (Nat × CategoryTreeNode)) :
    ∀ x ∈ (processGroup g).2.1, x ∈ g.map (fun p => p.2.nid) := by
  unfold processGroup
  by_cases h1 : g.length ≤ 1
  · rw [if_pos h1]
    intro x hx
    cases hx
  · rw [if_neg h1]
    by_cases h2 : allSameMeta g = true
    · rw [if_pos h2]
      intro x hx
      cases hs : insSort pairCountDescLE g with
      | nil =>
        rw [hs] at hx
        cases hx
      | cons p rest =>
        rw [hs] at hx
        unfold mergeGroup at hx
        simp only at hx
        have hmem : x ∈ (p :: rest).map (fun p => p.2.nid) :=
          List.mem_cons_of_mem _ hx
        rw [← hs] at hmem
        exact ((insSort_perm pairCountDescLE g).map (fun p => p.2.nid)).mem_iff.mp hmem
    · rw [if_neg h2]
      intro x hx
      cases hx

theorem processGroups_keys (gs : List (String × List (Nat × CategoryTreeNode))) :
    ((processGroups gs).1.map (·.1)).Perm ((gs.map (·.2)).flatten.map (·.1)) := by
  induction gs with
  | nil => rfl
  | cons hd tl ih =>
    obtain ⟨s, g⟩ := hd
    rw [processGroups]
    simp only [List.map_cons, List.flatten_cons, List.map_append]
    exact (processGroup_keys g).append ih

theorem processGroups_remove_sub (gs : List (String × List (Nat × CategoryTreeNode))) :
    ∀ x ∈ (processGroups gs).2.1,
      x ∈ (gs.map (·.2)).flatten.map (fun p => p.2.nid) := by
  induction gs with
  | nil =>
    intro x hx
    cases hx
  | cons hd tl ih =>
    obtain ⟨s, g⟩ := hd
    rw [processGroups]
    intro x hx
    simp only [List.map_cons, List.flatten_cons, List.map_append, List.mem_append]
    rcases List.mem_append.mp hx with h | h
    · exact Or.inl (processGroup_remove_sub g x h)
    · exact Or.inr (ih x h)

/-- Remove the first entry with position key `i`. -/
def dropFirstIdx : List (Nat × CategoryTreeNode) → Nat → List (Nat × CategoryTreeNode)
  | [], _ => []
  | p :: rest, i => if p.1 == i then rest else p :: dropFirstIdx rest i

theorem findIdx_cons_pos {p : Nat × CategoryTreeNode}
    {rest : List (Nat × CategoryTreeNode)} {i : Nat} (h : (p.1 == i) = true) :
    findIdx (p :: rest) i = some p.2 := by
  simp [findIdx, List.find?_cons, h]

theorem findIdx_cons_neg {p : Nat × CategoryTreeNode}
    {rest : List (Nat × CategoryTreeNode)} {i : Nat} (h : (p.1 == i) = false) :
    findIdx (p :: rest) i = findIdx rest i := by
  simp [findIdx, List.find?_cons, h]

theorem findIdx_isSome_of_mem {repl : List (Nat × CategoryTreeNode)} {i : Nat}
    (h : i ∈ repl.map (·.1)) : ∃ v, findIdx repl i = some v := by
  induction repl with
  | nil => cases h
  | cons p rest ih =>
    by_cases hp : (p.1 == i) = true
    · exact ⟨p.2, findIdx_cons_pos hp⟩
    · have hp' : (p.1 == i) = false := by simpa using hp
      rw [List.map_cons] at h
      rcases List.mem_cons.mp h with h1 | h1
      · subst h1
        simp at hp
      · obtain ⟨v, hv⟩ := ih h1
        exact ⟨v, by rw [findIdx_cons_neg hp', hv]⟩

theorem perm_pull {repl : List (Nat × CategoryTreeNode)} {i : Nat}
    {v : CategoryTreeNode} (h : findIdx repl i = some v) :
    repl.Perm ((i, v) :: dropFirstIdx repl i) := by
  induction repl with
  | nil => cases h
  | cons p rest ih =>
    by_cases hp : (p.1 == i) = true
    · rw [findIdx_cons_pos hp] at h
      injection h with h2
      rw [dropFirstIdx, if_pos hp]
      have hpi : p.1 = i := by simpa using hp
      have hpv : p = (i, v) := by
        rw [Prod.ext_iff]
        exact ⟨hpi, h2⟩
      rw [hpv]
    · have hp' : (p.1 == i) = false := by simpa using hp
      rw [findIdx_cons_neg hp'] at h
      rw [dropFirstIdx, if_neg hp]
      exact (List.Perm.cons p (ih h)).trans (List.Perm.swap _ _ _)

theorem findIdx_dropFirst_ne (repl : List (Nat × CategoryTreeNode)) {i k : Nat}
    (h : k ≠ i) : findIdx (dropFirstIdx repl i) k = findIdx repl k := by
  induction repl with
  | nil => rfl
  | cons p rest ih =>
    by_cases hp : (p.1 == i) = true
    · rw [dropFirstIdx, if_pos hp]
      have hpi : p.1 = i := by simpa using hp
      have hpk : (p.1 == k) = false := by
        rw [hpi, beq_eq_false_iff_ne]
        exact fun he => h he.symm
      rw [findIdx_cons_neg hpk]
    · rw [dropFirstIdx, if_neg hp]
      by_cases hk : (p.1 == k) = true
      · rw [findIdx_cons_pos hk, findIdx_cons_pos hk]
      · have hk' : (p.1 == k) = false := by simpa using hk
        rw [findIdx_cons_neg hk', findIdx_cons_neg hk', ih]

theorem applyRepl_congr {r1 r2 indexed : List (Nat × CategoryTreeNode)}
    (h : ∀ p ∈ indexed, findIdx r1 p.1 = findIdx r2 p.1) :
    applyRepl r1 indexed = applyRepl r2 indexed := by
  unfold applyRepl
  apply List.map_congr_left
  intro p hp
  rw [h p hp]

theorem applyRepl_perm :
    ∀ (indexed repl : List (Nat × CategoryTreeNode)),
      (indexed.map (·.1)).Nodup → (repl.map (·.1)).Perm (indexed.map (·.1)) →
      (applyRepl repl indexed).Perm (repl.map (·.2))
  | [], repl, _, hperm => by
    have h0 : repl.map (·.1) = [] := by
      have := hperm.symm
      exact this.symm.eq_nil
    have hr : repl = [] := List.map_eq_nil_iff.mp h0
    rw [hr]
    rfl
  | (i, n) :: rest, repl, hnodup, hperm => by
    have hnodup' : (i :: rest.map (·.1)).Nodup := by
      rw [List.map_cons] at hnodup
      exact hnodup
    have hnotin : i ∉ rest.map (·.1) := (List.nodup_cons.mp hnodup').1
    have hnodup2 : (rest.map (·.1)).Nodup := (List.nodup_cons.mp hnodup').2
    have hperm' : (repl.map (·.1)).Perm (i :: rest.map (·.1)) := by
      rw [List.map_cons] at hperm
      exact hperm
    have hi : i ∈ repl.map (·.1) := hperm'.mem_iff.mpr (List.mem_cons_self _ _)
    obtain ⟨v, hv⟩ := findIdx_isSome_of_mem hi
    have hpull := perm_pull hv
    have hkeys : (repl.map (·.1)).Perm (i :: (dropFirstIdx repl i).map (·.1)) := by
      have h2 := hpull.map (·.1)
      simpa using h2
    have htail : ((dropFirstIdx repl i).map (·.1)).Perm (rest.map (·.1)) :=
      (hkeys.symm.trans hperm').cons_inv
    have hrest : applyRepl repl rest = applyRepl (dropFirstIdx repl i) rest := by
      apply applyRepl_congr
      intro p hp
      have hpne : p.1 ≠ i := by
        intro he
        exact hnotin (he ▸ List.mem_map_of_mem (·.1) hp)
      exact (findIdx_dropFirst_ne repl hpne).symm
    have ih := applyRepl_perm rest (dropFirstIdx repl i) hnodup2 htail
    have hstep : applyRepl repl ((i, n) :: rest)
        = v :: applyRepl repl rest := by
      unfold applyRepl
      rw [List.map_cons]
      simp only [hv, Option.getD_some]
    rw [hstep, hrest]
    refine (ih.cons v).trans ?_
    have hvals := (hpull.map (·.2)).symm
    simpa using hvals

theorem nodeIds_eq (t : CategoryTreeNode) :
    nodeIds t = t.nid :: forestIds t.children := by
  cases t
  rfl

theorem forestIds_append (a b : List CategoryTreeNode) :
    forestIds (a ++ b) = forestIds a ++ forestIds b := by
  induction a with
  | nil => rfl
  | cons t ts ih =>
    rw [List.cons_append, forestIds, forestIds, ih, List.append_assoc]

theorem forestIds_perm {F F' : List CategoryTreeNode} (h : F.Perm F') :
    (forestIds F).Perm (forestIds F') := by
  induction h with
  | nil => exact List.Perm.refl _
  | cons x _ ih =>
    rw [forestIds, forestIds]
    exact ih.append_left (nodeIds x)
  | swap x y l =>
    rw [forestIds, forestIds, forestIds, forestIds, ← List.append_assoc,
      ← List.append_assoc]
    exact List.Perm.append_right (forestIds l) List.perm_append_comm
  | trans _ _ ih1 ih2 => exact ih1.trans ih2

theorem sublist_forestIds {F' F : List CategoryTreeNode} (h : F'.Sublist F) :
    (forestIds F').Sublist (forestIds F) := by
  induction h with
  | slnil => exact List.Sublist.refl _
  | cons t _ ih =>
    rw [forestIds]
    exact ih.trans (List.sublist_append_right _ _)
  | cons₂ t _ ih =>
    rw [forestIds, forestIds]
    exact ih.append_left _

theorem subperm_append_compat {α : Type} {a1 b1 a2 b2 : List α}
    (h1 : a1.Subperm b1) (h2 : a2.Subperm b2) : (a1 ++ a2).Subperm (b1 ++ b2) := by
  obtain ⟨x1, hx1, hs1⟩ := h1
  obtain ⟨x2, hx2, hs2⟩ := h2
  exact ⟨x1 ++ x2, hx1.append hx2, hs1.append hs2⟩

theorem levelNids_subperm (l : List CategoryTreeNode) :
    (l.map CategoryTreeNode.nid).Subperm (forestIds l) := by
  induction l with
  | nil => exact List.Subperm.refl _
  | cons t ts ih =>
    rw [List.map_cons, forestIds, nodeIds_eq]
    have h1 : (t.nid :: ts.map CategoryTreeNode.nid).Subperm
        ((t.nid :: forestIds t.children) ++ forestIds ts) := by
      have h2 : ([t.nid] ++ ts.map CategoryTreeNode.nid).Subperm
          ((t.nid :: forestIds t.children) ++ forestIds ts) := by
        refine subperm_append_compat ?_ ih
        refine List.Sublist.subperm ?_
        simp
      simpa using h2
    exact h1

theorem ownSum_node (c : SettingCategory) (d : String)
    (ch : List CategoryTreeNode) (k : Nat) :
    ownSum (.node c d ch k) = k + ownSumF ch := by
  rw [ownSum]

theorem ownSumF_flatten (ls : List (List CategoryTreeNode)) :
    ownSumF ls.flatten = (ls.map ownSumF).sum := by
  induction ls with
  | nil => rfl
  | cons a ls' ih =>
    rw [List.flatten_cons, ownSumF_append, ih, List.map_cons, List.sum_cons]

theorem sum_counts_add_children (qs : List (Nat × CategoryTreeNode)) :
    (qs.map (fun q => q.2.settingCount)).sum
      + ownSumF ((qs.map (fun q => q.2.children)).flatten)
      = ownSumF (qs.map (·.2)) := by
  induction qs with
  | nil => rfl
  | cons q qs' ih =>
    simp only [List.map_cons, List.sum_cons, List.flatten_cons, ownSumF_append,
      ownSumF]
    rw [ownSum_eq q.2]
    omega

theorem relabelNode_nodeIds (n : CategoryTreeNode) :
    nodeIds (relabelNode n) = nodeIds n := by
  unfold relabelNode
  split
  · cases n
    rfl
  · rfl

theorem contains_of_mem {l : List String} {a : String} (h : a ∈ l) :
    l.contains a = true := by
  simpa using h

theorem subperm_cons_compat {α : Type} {a : α} {l1 l2 : List α}
    (h : l1.Subperm l2) : (a :: l1).Subperm (a :: l2) := by
  have h2 := subperm_append_compat (List.Subperm.refl [a]) h
  simpa using h2

theorem flatten_children_subperm (qs : List (Nat × CategoryTreeNode)) :
    (forestIds ((qs.map (fun q => q.2.children)).flatten)).Subperm
      (forestIds (qs.map (·.2))) := by
  induction qs with
  | nil => exact List.Subperm.refl _
  | cons q qs' ih =>
    simp only [List.map_cons, List.flatten_cons]
    rw [forestIds_append, forestIds, nodeIds_eq]
    refine subperm_append_compat ?_ ih
    exact (List.sublist_cons_self _ _).subperm

theorem ownSumF_relabel (qs : List (Nat × CategoryTreeNode)) :
    ownSumF (qs.map (fun q => relabelNode q.2)) = ownSumF (qs.map (·.2)) := by
  induction qs with
  | nil => rfl
  | cons q qs' ih =>
    simp only [List.map_cons, ownSumF]
    rw [relabelNode_ownSum, ih]

theorem forestIds_relabel (qs : List (Nat × CategoryTreeNode)) :
    forestIds (qs.map (fun q => relabelNode q.2)) = forestIds (qs.map (·.2)) := by
  induction qs with
  | nil => rfl
  | cons q qs' ih =>
    simp only [List.map_cons, forestIds]
    rw [relabelNode_nodeIds, ih]

theorem relabelGroup_ownSumF (s : List (Nat × CategoryTreeNode)) :
    ownSumF ((relabelGroup s).map (·.2)) = ownSumF (s.map (·.2)) := by
  cases s with
  | nil => rfl
  | cons p rest =>
    rw [relabelGroup]
    simp only [List.map_cons, List.map_map, ownSumF]
    congr 1
    have h1 : (rest.map (fun q => (q.1, relabelNode q.2))).map (·.2)
        = rest.map (fun q => relabelNode q.2) := by
      rw [List.map_map]
      rfl
    calc ownSumF (rest.map ((fun p => p.2) ∘ fun q => (q.1, relabelNode q.2)))
        = ownSumF (rest.map (fun q => relabelNode q.2)) := rfl
      _ = ownSumF (rest.map (·.2)) := ownSumF_relabel rest

theorem relabelGroup_forestIds (s : List (Nat × CategoryTreeNode)) :
    forestIds ((relabelGroup s).map (·.2)) = forestIds (s.map (·.2)) := by
  cases s with
  | nil => rfl
  | cons p rest =>
    rw [relabelGroup]
    simp only [List.map_cons, List.map_map, forestIds]
    congr 1
    calc forestIds (rest.map ((fun p => p.2) ∘ fun q => (q.1, relabelNode q.2)))
        = forestIds (rest.map (fun q => relabelNode q.2)) := rfl
      _ = forestIds (rest.map (·.2)) := forestIds_relabel rest

theorem processGroup_filter_conserve (g : List (Nat × CategoryTreeNode))
    (T : List String) (hnodup : (g.map (fun p => p.2.nid)).Nodup)
    (hTsub : ∀ x ∈ (processGroup g).2.1, x ∈ T)
    (hTonly : ∀ x ∈ T, x ∈ (processGroup g).2.1 ∨ x ∉ g.map (fun p => p.2.nid)) :
    ownSumF (((processGroup g).1.map (·.2)).filter (fun n => !(T.contains n.nid)))
        = ownSumF (g.map (·.2)) ∧
    (forestIds (((processGroup g).1.map (·.2)).filter
        (fun n => !(T.contains n.nid)))).Subperm (forestIds (g.map (·.2))) := by
  by_cases h1 : g.length ≤ 1
  · have hpg : processGroup g = (g, [], []) := by
      unfold processGroup
      rw [if_pos h1]
    rw [hpg] at hTonly ⊢
    have hfe : (g.map (·.2)).filter (fun n => !(T.contains n.nid)) = g.map (·.2) := by
      apply List.filter_eq_self.mpr
      intro n hn
      have hc : T.contains n.nid = false := by
        apply contains_eq_false_of_forall_ne
        intro x hx he
        rcases hTonly x hx with h | h
        · cases h
        · apply h
          rw [he]
          obtain ⟨p, hp, rfl⟩ := List.mem_map.mp hn
          exact List.mem_map_of_mem _ hp
      rw [hc]
      rfl
    rw [hfe]
    exact ⟨rfl, List.Subperm.refl _⟩
  · by_cases h2 : allSameMeta g = true
    · have hpg : processGroup g = mergeGroup (insSort pairCountDescLE g) := by
        unfold processGroup
        rw [if_neg h1, if_pos h2]
      cases hs : insSort pairCountDescLE g with
      | nil =>
        exfalso
        have hlen := (insSort_perm pairCountDescLE g).length_eq
        rw [hs] at hlen
        simp only [List.length_nil] at hlen
        omega
      | cons p rest =>
        have hsortedPerm : (p :: rest).Perm g := by
          rw [← hs]
          exact insSort_perm pairCountDescLE g
        have hsnids : ((p :: rest).map (fun q => q.2.nid)).Nodup :=
          ((hsortedPerm.map (fun q => q.2.nid)).nodup_iff).mpr hnodup
        have hheadnotin : p.2.nid ∉ rest.map (fun q => q.2.nid) := by
          rw [List.map_cons] at hsnids
          exact (List.nodup_cons.mp hsnids).1
        rw [hpg, hs] at hTsub hTonly ⊢
        rw [mergeGroup] at hTsub hTonly ⊢
        simp only [List.map_cons] at hTsub hTonly ⊢
        have hMnid : (CategoryTreeNode.node p.2.cat p.2.displayName
            (p.2.children ++ (rest.map (fun q => q.2.children)).flatten)
            (p.2.settingCount + (rest.map (fun q => q.2.settingCount)).sum)).nid
            = p.2.nid := by
          rw [nid_eq_cat_id p.2]
          rfl
        have hPM : T.contains (CategoryTreeNode.node p.2.cat p.2.displayName
            (p.2.children ++ (rest.map (fun q => q.2.children)).flatten)
            (p.2.settingCount + (rest.map (fun q => q.2.settingCount)).sum)).nid
            = false := by
          rw [hMnid]
          apply contains_eq_false_of_forall_ne
          intro x hx he
          rcases hTonly x hx with h | h
          · rw [he] at h
            exact hheadnotin h
          · apply h
            rw [he]
            apply (hsortedPerm.map (fun q => q.2.nid)).mem_iff.mp
            rw [List.map_cons]
            exact List.mem_cons_self _ _
        have hrestfilter : (rest.map (·.2)).filter (fun n => !(T.contains n.nid)) = [] := by
          apply List.filter_eq_nil_iff.mpr
          intro n hn
          obtain ⟨q, hq, rfl⟩ := List.mem_map.mp hn
          have hmemT : q.2.nid ∈ T := hTsub _ (List.mem_map_of_mem _ hq)
          rw [contains_of_mem hmemT]
          exact Bool.noConfusion
        rw [List.filter_cons]
        rw [hPM]
        simp only [Bool.not_false, if_true, hrestfilter]
        constructor
        · rw [ownSumF, ownSumF, ownSum]
          rw [ownSumF_append]
          have hsc := sum_counts_add_children rest
          have e1 : ownSumF (g.map (·.2)) = ownSum p.2 + ownSumF (rest.map (·.2)) := by
            rw [ownSumF_perm ((hsortedPerm.map (·.2)).symm), List.map_cons, ownSumF]
          have e2 := ownSum_eq p.2
          omega
        · rw [forestIds, forestIds, nodeIds_eq, hMnid]
          have hMch : (CategoryTreeNode.node p.2.cat p.2.displayName
              (p.2.children ++ (rest.map (fun q => q.2.children)).flatten)
              (p.2.settingCount
                + (rest.map (fun q => q.2.settingCount)).sum)).children
              = p.2.children ++ (rest.map (fun q => q.2.children)).flatten := rfl
          rw [hMch, forestIds_append, List.append_nil]
          refine List.Subperm.trans ?_ (forestIds_perm (hsortedPerm.map (·.2))).subperm
          rw [List.map_cons, forestIds, nodeIds_eq, List.cons_append]
          refine subperm_cons_compat ?_
          exact subperm_append_compat (List.Subperm.refl _) (flatten_children_subperm rest)
    · have hpg : processGroup g
          = (relabelGroup (insSort pairCountDescLE g), [], []) := by
        unfold processGroup
        rw [if_neg h1, if_neg h2]
      rw [hpg] at hTonly ⊢
      have hsortedPerm : (insSort pairCountDescLE g).Perm g :=
        insSort_perm pairCountDescLE g
      have hfe : ((relabelGroup (insSort pairCountDescLE g)).map (·.2)).filter
          (fun n => !(T.contains n.nid))
          = (relabelGroup (insSort pairCountDescLE g)).map (·.2) := by
        apply List.filter_eq_self.mpr
        intro n hn
        have hnid : n.nid ∈ g.map (fun p => p.2.nid) := by
          obtain ⟨q, hq, rfl⟩ := List.mem_map.mp hn
          have h3 : q.2.nid ∈ (relabelGroup (insSort pairCountDescLE g)).map
              (fun p => p.2.nid) := List.mem_map_of_mem _ hq
          rw [relabelGroup_nids] at h3
          exact (hsortedPerm.map (fun p => p.2.nid)).mem_iff.mp h3
        have hc : T.contains n.nid = false := by
          apply contains_eq_false_of_forall_ne
          intro x hx he
          rcases hTonly x hx with h | h
          · cases h
          · apply h
            rw [he]
            exact hnid
        rw [hc]
        rfl
      rw [hfe]
      constructor
      · rw [relabelGroup_ownSumF]
        exact ownSumF_perm (hsortedPerm.map (·.2))
      · rw [relabelGroup_forestIds]
        exact (forestIds_perm (hsortedPerm.map (·.2))).subperm

theorem nodup_of_subperm {α : Type} {a b : List α} (h : a.Subperm b)
    (hb : b.Nodup) : a.Nodup := by
  obtain ⟨x, hx, hs⟩ := h
  exact hx.nodup_iff.mp (hs.nodup hb)

theorem processGroups_filter_conserve (T : List String) :
    ∀ gs : List (String × List (Nat × CategoryTreeNode)),
      (((gs.map (·.2)).flatten).map (fun p => p.2.nid)).Nodup →
      (∀ x ∈ (processGroups gs).2.1, x ∈ T) →
      (∀ x ∈ T, x ∈ (processGroups gs).2.1
        ∨ x ∉ ((gs.map (·.2)).flatten).map (fun p => p.2.nid)) →
      ownSumF (((processGroups gs).1.map (·.2)).filter (fun n => !(T.contains n.nid)))
          = ownSumF (((gs.map (·.2)).flatten).map (·.2)) ∧
      (forestIds (((processGroups gs).1.map (·.2)).filter
          (fun n => !(T.contains n.nid)))).Subperm
        (forestIds (((gs.map (·.2)).flatten).map (·.2)))
  | [] => by
    intro _ _ _
    exact ⟨rfl, List.Subperm.refl _⟩
  | (s, g) :: tl => by
    intro hnodup hTsub hTonly
    rw [processGroups] at hTsub hTonly ⊢
    simp only [List.map_cons, List.flatten_cons, List.map_append] at hnodup hTonly ⊢
    have hnd := List.nodup_append.mp hnodup
    have hgnd : (g.map (fun p => p.2.nid)).Nodup := hnd.1
    have htlnd : (((tl.map (·.2)).flatten).map (fun p => p.2.nid)).Nodup := hnd.2.1
    have hdisj : ∀ x ∈ g.map (fun p => p.2.nid),
        x ∉ ((tl.map (·.2)).flatten).map (fun p => p.2.nid) := fun x hx => hnd.2.2 hx
    have hTsub_g : ∀ x ∈ (processGroup g).2.1, x ∈ T :=
      fun x hx => hTsub x (List.mem_append.mpr (Or.inl hx))
    have hTsub_tl : ∀ x ∈ (processGroups tl).2.1, x ∈ T :=
      fun x hx => hTsub x (List.mem_append.mpr (Or.inr hx))
    have hTonly_g : ∀ x ∈ T, x ∈ (processGroup g).2.1 ∨ x ∉ g.map (fun p => p.2.nid) := by
      intro x hx
      rcases hTonly x hx with h | h
      · rcases List.mem_append.mp h with h2 | h2
        · exact Or.inl h2
        · refine Or.inr ?_
          intro hmem
          exact hdisj x hmem (processGroups_remove_sub tl x h2)
      · exact Or.inr (fun hmem => h (List.mem_append.mpr (Or.inl hmem)))
    have hTonly_tl : ∀ x ∈ T, x ∈ (processGroups tl).2.1
        ∨ x ∉ ((tl.map (·.2)).flatten).map (fun p => p.2.nid) := by
      intro x hx
      rcases hTonly x hx with h | h
      · rcases List.mem_append.mp h with h2 | h2
        · exact Or.inr (hdisj x (processGroup_remove_sub g x h2))
        · exact Or.inl h2
      · exact Or.inr (fun hmem => h (List.mem_append.mpr (Or.inr hmem)))
    obtain ⟨hg1, hg2⟩ := processGroup_filter_conserve g T hgnd hTsub_g hTonly_g
    obtain ⟨ht1, ht2⟩ := processGroups_filter_conserve T tl htlnd hTsub_tl hTonly_tl
    rw [List.filter_append, ownSumF_append, ownSumF_append, forestIds_append,
      forestIds_append]
    exact ⟨by rw [hg1, ht1], subperm_append_compat hg2 ht2⟩

theorem forest_block_sublist {l : List CategoryTreeNode} {n : CategoryTreeNode}
    (hn : n ∈ l) : (nodeIds n).Sublist (forestIds l) := by
  induction l with
  | nil => cases hn
  | cons t ts ih =>
    rcases List.mem_cons.mp hn with rfl | h2
    · rw [forestIds]
      exact List.sublist_append_left _ _
    · rw [forestIds]
      exact (ih h2).trans (List.sublist_append_right _ _)

theorem forest_children_nodup {l : List CategoryTreeNode}
    (h : (forestIds l).Nodup) {n : CategoryTreeNode} (hn : n ∈ l) :
    (forestIds n.children).Nodup := by
  have h1 : (forestIds n.children).Sublist (nodeIds n) := by
    rw [nodeIds_eq]
    exact List.sublist_cons_self _ _
  exact ((h1.trans (forest_block_sublist hn)).nodup) h

theorem dedupSurvivors_conserve (l : List CategoryTreeNode)
    (h : (forestIds l).Nodup) :
    ownSumF (dedupSurvivors l) = ownSumF l ∧
    (forestIds (dedupSurvivors l)).Subperm (forestIds l) := by
  have henum_vals : l.enum.map (·.2) = l := List.enum_map_snd l
  have henum_keys_nodup : (l.enum.map (·.1)).Nodup := by
    have h1 : l.enum.map (·.1) = List.range l.length := List.enum_map_fst l
    rw [h1]
    exact List.nodup_range _
  have hflat := byNameGroups_flat l.enum
  have hnids_nodup : ((((byNameGroups l.enum).map (·.2)).flatten).map
      (fun p => p.2.nid)).Nodup := by
    have h1 := hflat.map (fun p => p.2.nid)
    have h2 : l.enum.map (fun p => p.2.nid) = l.map CategoryTreeNode.nid := by
      conv_rhs => rw [← henum_vals]
      rw [List.map_map]
      rfl
    rw [h2] at h1
    exact h1.nodup_iff.mpr (nodup_of_subperm (levelNids_subperm l) h)
  have hTsub : ∀ x ∈ (processGroups (byNameGroups l.enum)).2.1,
      x ∈ (processGroups (byNameGroups l.enum)).2.1 := fun x hx => hx
  have hTonly : ∀ x ∈ (processGroups (byNameGroups l.enum)).2.1,
      x ∈ (processGroups (byNameGroups l.enum)).2.1
        ∨ x ∉ (((byNameGroups l.enum).map (·.2)).flatten).map (fun p => p.2.nid) :=
    fun x hx => Or.inl hx
  obtain ⟨R1, R2⟩ := processGroups_filter_conserve
    ((processGroups (byNameGroups l.enum)).2.1) (byNameGroups l.enum)
    hnids_nodup hTsub hTonly
  have keysperm : ((processGroups (byNameGroups l.enum)).1.map (·.1)).Perm
      (l.enum.map (·.1)) :=
    (processGroups_keys (byNameGroups l.enum)).trans (hflat.map (·.1))
  have perm1 := applyRepl_perm l.enum (processGroups (byNameGroups l.enum)).1
    henum_keys_nodup keysperm
  have hsurv : dedupSurvivors l
      = (applyRepl (processGroups (byNameGroups l.enum)).1 l.enum).filter
        (fun n => !((processGroups (byNameGroups l.enum)).2.1.contains n.nid)) := rfl
  have permfil := perm1.filter
    (fun n => !((processGroups (byNameGroups l.enum)).2.1.contains n.nid))
  have hvalsperm : ((((byNameGroups l.enum).map (·.2)).flatten).map (·.2)).Perm l := by
    have h1 := hflat.map (·.2)
    rw [henum_vals] at h1
    exact h1
  constructor
  · rw [hsurv, ownSumF_perm permfil, R1, ownSumF_perm hvalsperm]
  · rw [hsurv]
    refine ((forestIds_perm permfil).subperm.trans R2).trans ?_
    exact (forestIds_perm hvalsperm).subperm

theorem ownSumF_rebuild (fuel : Nat)
    (hrec : ∀ ch : List CategoryTreeNode, (forestIds ch).Nodup →
      ownSumF (dedupSiblings fuel ch).1 = ownSumF ch) :
    ∀ s : List CategoryTreeNode, (∀ n ∈ s, (forestIds n.children).Nodup) →
      ownSumF (s.map (fun n => CategoryTreeNode.node n.cat n.displayName
        (dedupSiblings fuel n.children).1 n.settingCount)) = ownSumF s := by
  intro s
  induction s with
  | nil => intro _; rfl
  | cons n s' ih =>
    intro hch
    rw [List.map_cons, ownSumF, ownSumF, ownSum,
      hrec n.children (hch n (List.mem_cons_self _ _)),
      ih (fun m hm => hch m (List.mem_cons_of_mem _ hm)), ownSum_eq n]

theorem dedup_ownSum : ∀ (fuel : Nat) (F : List CategoryTreeNode),
    (forestIds F).Nodup → ownSumF (dedupSiblings fuel F).1 = ownSumF F
  | 0, F, _ => rfl
  | fuel+1, F, h => by
    obtain ⟨hsum, hsub⟩ := dedupSurvivors_conserve F h
    have hnodsurv : (forestIds (dedupSurvivors F)).Nodup := nodup_of_subperm hsub h
    have hch : ∀ n ∈ dedupSurvivors F, (forestIds n.children).Nodup :=
      fun n hn => forest_children_nodup hnodsurv hn
    have hrec : ∀ ch : List CategoryTreeNode, (forestIds ch).Nodup →
        ownSumF (dedupSiblings fuel ch).1 = ownSumF ch :=
      fun ch hc => dedup_ownSum fuel ch hc
    rw [dedupSiblings]
    calc ownSumF ((dedupSurvivors F).map (fun n =>
          CategoryTreeNode.node n.cat n.displayName
            (dedupSiblings fuel n.children).1 n.settingCount))
        = ownSumF (dedupSurvivors F) := ownSumF_rebuild fuel hrec _ hch
      _ = ownSumF F := hsum

/-- Claim C3: the forest returned by `buildCategoryTree` is the roll-up of
the deduplicated forest; roll-up rewrites every node so that its count equals
its own (pre-roll-up) count plus the sum of its children's (rolled-up)
counts; a rolled-up count is exactly the sum of the subtree's own counts,
each node counted once; and on any forest with distinct category ids —
`nodeMap` keys are unique, so the built forest always has them — sibling
deduplication preserves the total of the own counts: a merged-away node's
settings are absorbed into the primary exactly once, never duplicated, so
the total rolled-up count equals the total of the original forest. -/
theorem buildCategoryTree_rollup_no_double_count
    (categories : List SettingCategory) (counts : JsMap Nat) :
    ((buildCategoryTree categories counts).1
        = rollUpForest (dedupedForest categories counts)) ∧
    (∀ l : List CategoryTreeNode, rollUpForest l = l.map rollUpNode) ∧
    (∀ t : CategoryTreeNode, (rollUpNode t).children = rollUpForest t.children) ∧
    (∀ t : CategoryTreeNode, (rollUpNode t).settingCount
        = t.settingCount + sumCounts (rollUpNode t).children) ∧
    (∀ t : CategoryTreeNode, (rollUpNode t).settingCount = ownSum t) ∧
    (∀ (fuel : Nat) (F : List CategoryTreeNode), (forestIds F).Nodup →
        ownSumF (dedupSiblings fuel F).1 = ownSumF F) ∧
    ((forestIds (sortForest (baseForest categories counts))).Nodup →
        sumCounts (buildCategoryTree categories counts).1
          = ownSumF (baseForest categories counts)) := by
  refine ⟨rfl, rollUpForest_eq_map, rollUpNode_children, rollUpNode_count_eq,
    rollUpNode_ownSum, dedup_ownSum, ?_⟩
  intro h
  have h1 : sumCounts (buildCategoryTree categories counts).1
      = ownSumF (dedupedForest categories counts) :=
    rollUpForest_ownSumF _
  rw [h1, dedupedForest, sortForest_ownSumF,
    dedup_ownSum (categories.length + 1) _ h, sortForest_ownSumF]

/-- Claim C3 witness input: two root categories with the same display name
and identical metadata — true duplicates that get merged. -/
def c3CatA : SettingCategory := { id := "a", displayName := "Dup" }

/-- Claim C3 witness input: the second duplicate root category. -/
def c3CatB : SettingCategory := { id := "b", displayName := "Dup" }

/-- Witness for claim C3 at a concrete input: merging the two duplicate
categories (2 and 3 settings) yields a total rolled-up count of exactly 5 —
conserved, not doubled. -/
theorem buildCategoryTree_rollup_no_double_count_witness :
    (forestIds (sortForest (baseForest [c3CatA, c3CatB] [("a", 2), ("b", 3)]))).Nodup ∧
    sumCounts (buildCategoryTree [c3CatA, c3CatB] [("a", 2), ("b", 3)]).1
      = ownSumF (baseForest [c3CatA, c3CatB] [("a", 2), ("b", 3)]) :=
  ⟨by decide,
    (buildCategoryTree_rollup_no_double_count [c3CatA, c3CatB]
        [("a", 2), ("b", 3)]).2.2.2.2.2.2 (by decide)⟩
